import Mathlib

/-!
# Connect Four game state (`connect_four.cpp`)

A shallow embedding of `ConnectFourState` and of its member functions
`do_move`, `do_random_move`, `has_moves`, `get_moves`, `get_winner` and
`get_result`, and the properties proved of them.

Conventions of the embedding

* C++ `int` values are `Int`; board indices stay far below the machine range,
  so no wrap-around is modelled.
* A member function that can fail returns `Except Error _`.  `do_move`, which
  mutates the object, returns the outcome together with the state the object
  is left in.
* Every board read goes through `readCell`, which checks the indices against
  `num_rows` and `num_cols`; an access outside the board is the error
  `OutOfBounds`.
* The `while`/`for` scans whose termination is not syntactically evident take
  a fuel argument and report `OutOfFuel` when it is exhausted; the member
  functions supply a fuel that is shown to be sufficient.
* The header `connect_four.h` is not among the sources.  The cell type and
  the marker table are modelled from the specification; `check_invariant`,
  whose body is unknown, is a parameter `inv` of every function that calls it.
* The random engine of `do_random_move` is the list of the values it
  returns.
-/

namespace ConnectFour

/-- Modelled from the spec: the contents of a board cell.  The header that
declares the cell type is absent; the specification's data model gives three
distinct markers, `Empty`, `PlayerOne` and `PlayerTwo`. -/
inductive Marker where
  | Empty : Marker
  | PlayerOne : Marker
  | PlayerTwo : Marker
deriving DecidableEq, Repr

/-- The ways a call can fail. `IllegalMove` and `ContractViolation` are the
failed `assert`s of `do_move` and of `get_result`; `InvariantViolation` is a
failed `check_invariant`; `OutOfBounds` is an access outside an array;
`OutOfFuel` is a loop of the model that was given too little fuel. -/
inductive Error where
  | IllegalMove : Error
  | ContractViolation : Error
  | InvariantViolation : Error
  | OutOfBounds : Error
  | OutOfFuel : Error
deriving DecidableEq, Repr

/-- Modelled from the spec: the table `player_markers[3]`, declared in the
absent header.  Index 0 is the `Empty` marker, indices 1 and 2 are the markers
of the two players; any other index lies outside the table. -/
def player_markers (i : Int) : Option Marker :=
  if i = 0 then some Marker.Empty
  else if i = 1 then some Marker.PlayerOne
  else if i = 2 then some Marker.PlayerTwo
  else none

/-- The fields of `ConnectFourState`.  The board has `num_rows` rows and
`num_cols` columns; row 0 is the top row. -/
structure ConnectFourState where
  num_rows : Int
  num_cols : Int
  board : Int → Int → Marker
  player_to_move : Int
  last_col : Int
  last_row : Int

/-- Modelled from the spec: the constructor, declared in the absent header.
An empty board, `PlayerOne` to move and no last move (sentinel `-1`). -/
def init (rows cols : Int) : ConnectFourState :=
  { num_rows := rows
    num_cols := cols
    board := fun _ _ => Marker.Empty
    player_to_move := 1
    last_col := -1
    last_row := -1 }

/-- The index pair `(row, col)` addresses a cell of the board. -/
def inBounds (s : ConnectFourState) (row col : Int) : Prop :=
  0 ≤ row ∧ row < s.num_rows ∧ 0 ≤ col ∧ col < s.num_cols

instance (s : ConnectFourState) (row col : Int) : Decidable (inBounds s row col) := by
  unfold inBounds
  exact inferInstance

/-- The read `board[row][col]`, checked against the board dimensions. -/
def readCell (s : ConnectFourState) (row col : Int) : Except Error Marker :=
  if inBounds s row col then Except.ok (s.board row col) else Except.error Error.OutOfBounds

/-- The board after the assignment `board[row][col] = m`. -/
def setCell (b : Int → Int → Marker) (row col : Int) (m : Marker) : Int → Int → Marker :=
  fun r c => if r = row ∧ c = col then m else b r c

/-- The loop `while (board[row][move] != player_markers[0]) row--;` of
`do_move`, started at `row`.  It yields the row at which it stops. -/
def do_move_loop (s : ConnectFourState) (move : Int) : Nat → Int → Except Error Int
  | 0, _ => Except.error Error.OutOfFuel
  | fuel + 1, row =>
    match readCell s row move with
    | Except.error e => Except.error e
    | Except.ok m =>
      if m ≠ Marker.Empty then do_move_loop s move fuel (row - 1) else Except.ok row

/-- The member function `ConnectFourState::do_move`.  The result is the outcome of the call and
the state of the object after it. -/
def do_move (inv : ConnectFourState → Bool) (s : ConnectFourState) (move : Int) :
    Except Error Unit × ConnectFourState :=
  if ¬ (0 ≤ move ∧ move < s.num_cols) then (Except.error Error.IllegalMove, s)
  else
    match readCell s 0 move with
    | Except.error e => (Except.error e, s)
    | Except.ok top =>
      if top ≠ Marker.Empty then (Except.error Error.IllegalMove, s)
      else if inv s = false then (Except.error Error.InvariantViolation, s)
      else
        match do_move_loop s move (s.num_rows.toNat + 1) (s.num_rows - 1) with
        | Except.error e => (Except.error e, s)
        | Except.ok row =>
          match player_markers s.player_to_move with
          | none => (Except.error Error.OutOfBounds, s)
          | some m =>
            (Except.ok (),
              { s with
                board := setCell s.board row move m
                last_col := move
                last_row := row
                player_to_move := 3 - s.player_to_move })

/-- One of the eight counting loops of `get_winner`:
`for (row, col = start; cond(row, col) && board[row][col] == piece; row += dr, col += dc) n++`.
`cond` is the index test of the loop header, evaluated before the read. -/
def count_loop (s : ConnectFourState) (piece : Marker) (cond : Int → Int → Bool)
    (dr dc : Int) : Nat → Int → Int → Nat → Except Error Nat
  | 0, _, _, _ => Except.error Error.OutOfFuel
  | fuel + 1, row, col, n =>
    if cond row col then
      match readCell s row col with
      | Except.error e => Except.error e
      | Except.ok m =>
        if m = piece then count_loop s piece cond dr dc fuel (row + dr) (col + dc) (n + 1)
        else Except.ok n
    else Except.ok n

/-- Fuel handed to the counting loops of `get_winner`. -/
def scanFuel (s : ConnectFourState) : Nat := s.num_rows.toNat + s.num_cols.toNat + 1

/-- The member function `ConnectFourState::get_winner`. -/
def get_winner (s : ConnectFourState) : Except Error Marker :=
  if s.last_col < 0 then Except.ok Marker.Empty
  else do
    let piece ← readCell s s.last_row s.last_col
    let left ← count_loop s piece (fun _ col => decide (col ≥ 0)) 0 (-1)
      (scanFuel s) s.last_row (s.last_col - 1) 0
    let right ← count_loop s piece (fun _ col => decide (col < s.num_cols)) 0 1
      (scanFuel s) s.last_row (s.last_col + 1) 0
    if left + 1 + right ≥ 4 then Except.ok piece
    else do
      let up ← count_loop s piece (fun row _ => decide (row ≥ 0)) (-1) 0
        (scanFuel s) (s.last_row - 1) s.last_col 0
      let down ← count_loop s piece (fun row _ => decide (row < s.num_rows)) 1 0
        (scanFuel s) (s.last_row + 1) s.last_col 0
      if up + 1 + down ≥ 4 then Except.ok piece
      else do
        let up ← count_loop s piece (fun row col => decide (row ≥ 0) && decide (col ≥ 0))
          (-1) (-1) (scanFuel s) (s.last_row - 1) (s.last_col - 1) 0
        let down ← count_loop s piece
          (fun row col => decide (row < s.num_rows) && decide (col < s.num_cols))
          1 1 (scanFuel s) (s.last_row + 1) (s.last_col + 1) 0
        if up + 1 + down ≥ 4 then Except.ok piece
        else do
          let up ← count_loop s piece
            (fun row col => decide (row < s.num_rows) && decide (col ≥ 0))
            1 (-1) (scanFuel s) (s.last_row + 1) (s.last_col - 1) 0
          let down ← count_loop s piece
            (fun row col => decide (row ≥ 0) && decide (col < s.num_cols))
            (-1) 1 (scanFuel s) (s.last_row - 1) (s.last_col + 1) 0
          if up + 1 + down ≥ 4 then Except.ok piece
          else Except.ok Marker.Empty

/-- The column indices `0, 1, ..., num_cols - 1` visited by
`for (int col = 0; col < num_cols; ++col)`. -/
def columns (s : ConnectFourState) : List Int :=
  (List.range s.num_cols.toNat).map Int.ofNat

/-- The column loop of `has_moves`, over the columns still to visit. -/
def has_moves_loop (s : ConnectFourState) : List Int → Except Error Bool
  | [] => Except.ok false
  | col :: rest =>
    match readCell s 0 col with
    | Except.error e => Except.error e
    | Except.ok m => if m = Marker.Empty then Except.ok true else has_moves_loop s rest

/-- The member function `ConnectFourState::has_moves`. -/
def has_moves (inv : ConnectFourState → Bool) (s : ConnectFourState) : Except Error Bool :=
  if inv s = false then Except.error Error.InvariantViolation
  else
    match get_winner s with
    | Except.error e => Except.error e
    | Except.ok winner =>
      if winner ≠ Marker.Empty then Except.ok false
      else has_moves_loop s (columns s)

/-- The column loop of `get_moves`: `moves` is the vector built so far. -/
def get_moves_loop (s : ConnectFourState) : List Int → List Int → Except Error (List Int)
  | [], moves => Except.ok moves
  | col :: rest, moves =>
    match readCell s 0 col with
    | Except.error e => Except.error e
    | Except.ok m =>
      if m = Marker.Empty then get_moves_loop s rest (moves ++ [col])
      else get_moves_loop s rest moves

/-- The member function `ConnectFourState::get_moves`.  The call `moves.reserve(num_cols)` sets
the capacity of the vector only and does not appear here. -/
def get_moves (inv : ConnectFourState → Bool) (s : ConnectFourState) :
    Except Error (List Int) :=
  if inv s = false then Except.error Error.InvariantViolation
  else
    match get_winner s with
    | Except.error e => Except.error e
    | Except.ok winner =>
      if winner ≠ Marker.Empty then Except.ok []
      else get_moves_loop s (columns s) []

/-- The member function `ConnectFourState::get_result`.  The three `double` results `0.0`, `0.5`
and `1.0` are exact, and are the rationals `0`, `1/2` and `1`. -/
def get_result (inv : ConnectFourState → Bool) (s : ConnectFourState)
    (current_player_to_move : Int) : Except Error ℚ :=
  match has_moves inv s with
  | Except.error e => Except.error e
  | Except.ok true => Except.error Error.ContractViolation
  | Except.ok false =>
    if inv s = false then Except.error Error.InvariantViolation
    else
      match get_winner s with
      | Except.error e => Except.error e
      | Except.ok winner =>
        if winner = Marker.Empty then Except.ok (1 / 2)
        else
          match player_markers current_player_to_move with
          | none => Except.error Error.OutOfBounds
          | some m => if winner = m then Except.ok 0 else Except.ok 1

/-- The driver loop of `main_program` on a given list of moves:
`while (state.has_moves()) { ...; state.do_move(move); }`.  Each move is made
only if `has_moves()` returned true; the run stops at the first failure. -/
def play (inv : ConnectFourState → Bool) (s : ConnectFourState) :
    List Int → Except Error Unit × ConnectFourState
  | [] => (Except.ok (), s)
  | m :: rest =>
    match has_moves inv s with
    | Except.error e => (Except.error e, s)
    | Except.ok false => (Except.error Error.ContractViolation, s)
    | Except.ok true =>
      match do_move inv s m with
      | (Except.ok _, s') => play inv s' rest
      | (Except.error e, s') => (Except.error e, s')

/-- The row indices `0, 1, ..., num_rows - 1`. -/
def rows (s : ConnectFourState) : List Int :=
  (List.range s.num_rows.toNat).map Int.ofNat

/-- Modelled from the spec: `check_invariant`, declared in the absent header.
It is the conjunction of the invariants that the specification's data model
lists for a single game state: `player_to_move` is one of the two players;
in every column the filled cells are contiguous from the bottom; and
`last_move`, when set, is a cell of the board that holds the marker of the
player other than `player_to_move` and has an empty cell (or nothing) above
it.  The functions below do not use this definition: they take the check as
the parameter `inv`.  It instantiates `inv` in the closed examples. -/
def check_invariant (s : ConnectFourState) : Bool :=
  decide (s.player_to_move = 1 ∨ s.player_to_move = 2)
  && (rows s).all (fun r => (columns s).all (fun c =>
      decide (s.board r c ≠ Marker.Empty → r + 1 < s.num_rows →
        s.board (r + 1) c ≠ Marker.Empty)))
  && decide (0 ≤ s.last_col →
      (inBounds s s.last_row s.last_col
        ∧ s.board s.last_row s.last_col ≠ Marker.Empty
        ∧ (0 < s.last_row → s.board (s.last_row - 1) s.last_col = Marker.Empty)
        ∧ player_markers (3 - s.player_to_move) = some (s.board s.last_row s.last_col)))

/-- The states reachable from an empty board (with at least one row and one
column) by `do_move` calls, each made while `has_moves()` was true and each
successful. -/
inductive Reachable (inv : ConnectFourState → Bool) : ConnectFourState → Prop where
  | empty (nrows ncols : Int) (hr : 0 < nrows) (hc : 0 < ncols) :
      Reachable inv (init nrows ncols)
  | move (s s' : ConnectFourState) (c : Int) (hs : Reachable inv s)
      (hm : has_moves inv s = Except.ok true)
      (hd : do_move inv s c = (Except.ok (), s')) :
      Reachable inv s'

/-- The four line orientations as (row step, column step): along a row, along
a column, and along the two diagonals. -/
def lineDirs : List (Int × Int) := [(0, 1), (1, 0), (1, 1), (1, -1)]

/-- The cell `(row, col)` is on the board and holds `m`. -/
def cellIs (s : ConnectFourState) (m : Marker) (row col : Int) : Bool :=
  decide (inBounds s row col) && decide (s.board row col = m)

/-- Somewhere on the board there are four consecutive cells in a row, column
or diagonal that all hold the marker `m`: the cells
`(r + i * dr, c + i * dc)` for `i = 0, 1, 2, 3`. -/
def FourInARow (s : ConnectFourState) (m : Marker) : Prop :=
  ∃ r c : Int, ∃ d ∈ lineDirs, ∀ i : Nat, i < 4 →
    cellIs s m (r + i * d.1) (c + i * d.2) = true

/-- The naive full-board scan for the marker `m`: every cell of the board is
tried as the first cell of a line of four, in each of the four orientations. -/
def naive_scan (s : ConnectFourState) (m : Marker) : Bool :=
  (rows s).any (fun r => (columns s).any (fun c => lineDirs.any (fun d =>
    (List.range 4).all (fun i => cellIs s m (r + i * d.1) (c + i * d.2)))))

/-- In the orientation `d`, four consecutive cells, one of which is
`last_move`, all hold the marker `m`: the cells at offsets `-j, ..., 3 - j`
from `last_move`.  This says that the maximal run of `m` through `last_move`
in that orientation has length at least 4. -/
def RunThroughLast (s : ConnectFourState) (m : Marker) (d : Int × Int) : Prop :=
  ∃ j : Nat, j < 4 ∧ ∀ i : Nat, i < 4 →
    cellIs s m (s.last_row + (i - j) * d.1) (s.last_col + (i - j) * d.2) = true

/-- In at least one of the four orientations the run of `m` through
`last_move` has length at least 4. -/
def WinAtLast (s : ConnectFourState) (m : Marker) : Prop :=
  ∃ d ∈ lineDirs, RunThroughLast s m d

instance (s : ConnectFourState) (m : Marker) (d : Int × Int) :
    Decidable (RunThroughLast s m d) := by
  unfold RunThroughLast
  exact inferInstance

instance (s : ConnectFourState) (m : Marker) : Decidable (WinAtLast s m) := by
  unfold WinAtLast
  exact inferInstance

/-- A board given by the list of its occupied cells `((row, col), marker)`;
every other cell is `Empty`. -/
def boardOf (cells : List ((Int × Int) × Marker)) : Int → Int → Marker :=
  fun r c =>
    match cells.find? (fun e => decide (e.1 = (r, c))) with
    | some e => e.2
    | none => Marker.Empty

/-- The state invariant behind the last-move-only scan: `player_to_move` is 1
or 2; with no last move the board is empty; with a last move, that cell is on
the board, is not `Empty`, and every line of four equal player markers passes
through it. -/
def ScanInvariant (s : ConnectFourState) : Prop :=
  (s.player_to_move = 1 ∨ s.player_to_move = 2) ∧
  (s.last_col < 0 → ∀ r c : Int, s.board r c = Marker.Empty) ∧
  (0 ≤ s.last_col →
    inBounds s s.last_row s.last_col ∧
    s.board s.last_row s.last_col ≠ Marker.Empty ∧
    ∀ m : Marker, m ≠ Marker.Empty → ∀ r c : Int, ∀ d ∈ lineDirs,
      (∀ i : Nat, i < 4 → cellIs s m (r + i * d.1) (c + i * d.2) = true) →
      ∃ j : Nat, j < 4 ∧ r + j * d.1 = s.last_row ∧ c + j * d.2 = s.last_col)

/-- The state after the moves 3, 0, 3, 0, 3, 0, 3 on the empty 6x7 board:
`PlayerOne` has four pieces in column 3, `PlayerTwo` three in column 0. -/
def fourInColumnThree : ConnectFourState :=
  (play check_invariant (init 6 7) [3, 0, 3, 0, 3, 0, 3]).2

/-- The state after six moves into column 0 of the empty 6x7 board: column 0
is full. -/
def fullColumnZero : ConnectFourState :=
  (play check_invariant (init 6 7) [0, 0, 0, 0, 0, 0]).2

/-- A 6x7 state with `PlayerOne` pieces at (5,0), (4,1), (3,2), (2,3) and last
move (2,3). -/
def diagonalFour : ConnectFourState :=
  { num_rows := 6
    num_cols := 7
    board := boardOf [((5, 0), Marker.PlayerOne), ((4, 1), Marker.PlayerOne),
      ((3, 2), Marker.PlayerOne), ((2, 3), Marker.PlayerOne)]
    player_to_move := 2
    last_col := 3
    last_row := 2 }

/-- A 6x7 state with `PlayerOne` pieces at (5,0), (5,1), (5,2), `PlayerTwo`
pieces at (5,4), (5,5) and last move (5,2): a run of three only. -/
def threeInRow : ConnectFourState :=
  { num_rows := 6
    num_cols := 7
    board := boardOf [((5, 0), Marker.PlayerOne), ((5, 1), Marker.PlayerOne),
      ((5, 2), Marker.PlayerOne), ((5, 4), Marker.PlayerTwo), ((5, 5), Marker.PlayerTwo)]
    player_to_move := 2
    last_col := 2
    last_row := 5 }

/-- A full 6x7 board without four in a row: the cell (r, c) holds `PlayerOne`
when `c / 2 + r` is even and `PlayerTwo` otherwise.  The last move is (0,3). -/
def drawnBoard : ConnectFourState :=
  { num_rows := 6
    num_cols := 7
    board := fun r c => if (c / 2 + r) % 2 = 0 then Marker.PlayerOne else Marker.PlayerTwo
    player_to_move := 1
    last_col := 3
    last_row := 0 }

/-- The draw loop of `do_random_move`:
`while (true) { auto move = moves(*engine); if (board[0][move] == player_markers[0]) { do_move(move); return; } }`.
The list holds the values that the successive calls `moves(*engine)` return;
when it is used up the loop has not returned yet, which is reported as
`OutOfFuel`. -/
def do_random_move_loop (inv : ConnectFourState → Bool) (s : ConnectFourState) :
    List Int → Except Error Unit × ConnectFourState
  | [] => (Except.error Error.OutOfFuel, s)
  | move :: rest =>
    match readCell s 0 move with
    | Except.error e => (Except.error e, s)
    | Except.ok m =>
      if m = Marker.Empty then do_move inv s move
      else do_random_move_loop inv s rest

/-- The member function `ConnectFourState::do_random_move`, on the sequence
`draws` of values produced by the random engine. -/
def do_random_move (inv : ConnectFourState → Bool) (s : ConnectFourState)
    (draws : List Int) : Except Error Unit × ConnectFourState :=
  match has_moves inv s with
  | Except.error e => (Except.error e, s)
  | Except.ok false => (Except.error Error.ContractViolation, s)
  | Except.ok true =>
    if inv s = false then (Except.error Error.InvariantViolation, s)
    else do_random_move_loop inv s draws

/-- The state `s'` is obtained from `s0` by `n` successful `do_move` calls. -/
inductive MovesFrom (inv : ConnectFourState → Bool) (s0 : ConnectFourState) :
    Nat → ConnectFourState → Prop where
  | zero : MovesFrom inv s0 0 s0
  | succ (n : Nat) (s s' : ConnectFourState) (c : Int) (hs : MovesFrom inv s0 n s)
      (hd : do_move inv s c = (Except.ok (), s')) :
      MovesFrom inv s0 (n + 1) s'

/-- Gravity: in every column the filled cells are contiguous from the bottom.
If the cell `(r, c)` of the board is not `Empty`, neither is any cell
`(r', c)` of the board below it (`r' > r`). -/
def Gravity (s : ConnectFourState) : Prop :=
  ∀ r r' c : Int, 0 ≤ r → r < r' → r' < s.num_rows → 0 ≤ c → c < s.num_cols →
    s.board r c ≠ Marker.Empty → s.board r' c ≠ Marker.Empty

/-- The index pairs of all cells of the board. -/
def cells (s : ConnectFourState) : List (Int × Int) :=
  (rows s).product (columns s)

/-- The number of cells of the board that are not `Empty`. -/
def countNonEmpty (s : ConnectFourState) : Nat :=
  (cells s).countP (fun p => decide (s.board p.1 p.2 ≠ Marker.Empty))

/-- The state after the moves 3, 0, 3 on the empty 6x7 board. -/
def threeMoves : ConnectFourState :=
  (play check_invariant (init 6 7) [3, 0, 3]).2

/-! ## Lemmas on the embedding -/

theorem readCell_of_inBounds {s : ConnectFourState} {r c : Int} (h : inBounds s r c) :
    readCell s r c = Except.ok (s.board r c) := by
  simp [readCell, h]

theorem readCell_of_not_inBounds {s : ConnectFourState} {r c : Int} (h : ¬ inBounds s r c) :
    readCell s r c = Except.error Error.OutOfBounds := by
  simp [readCell, h]

theorem readCell_ok_iff (s : ConnectFourState) (r c : Int) (m : Marker) :
    readCell s r c = Except.ok m ↔ inBounds s r c ∧ s.board r c = m := by
  unfold readCell
  split <;> simp [*]

theorem cellIs_iff (s : ConnectFourState) (m : Marker) (r c : Int) :
    cellIs s m r c = true ↔ inBounds s r c ∧ s.board r c = m := by
  simp [cellIs]

theorem cellIs_eq_false_iff (s : ConnectFourState) (m : Marker) (r c : Int) :
    cellIs s m r c = false ↔ ¬ (inBounds s r c ∧ s.board r c = m) := by
  simp [cellIs]

theorem do_move_loop_spec (s : ConnectFourState) (move : Int)
    (htop : s.board 0 move = Marker.Empty) (hc : 0 ≤ move ∧ move < s.num_cols) :
    ∀ (fuel : Nat) (row : Int), 0 ≤ row → row < s.num_rows → row.toNat < fuel →
      ∃ r, do_move_loop s move fuel row = Except.ok r ∧ 0 ≤ r ∧ r ≤ row ∧
        s.board r move = Marker.Empty ∧
        ∀ r', r < r' → r' ≤ row → s.board r' move ≠ Marker.Empty := by
  intro fuel
  induction fuel with
  | zero => intro row h0 _ hf; omega
  | succ fuel ih =>
    intro row h0 h1 hf
    have hin : inBounds s row move := ⟨h0, h1, hc.1, hc.2⟩
    unfold do_move_loop
    rw [readCell_of_inBounds hin]
    by_cases hE : s.board row move = Marker.Empty
    · refine ⟨row, by simp [hE], h0, le_refl _, hE, ?_⟩
      intro r' h2 h3; omega
    · have hne : row ≠ 0 := by
        intro h; rw [h] at hE; exact hE htop
      obtain ⟨r, hr, hr0, hr1, hr2, hr3⟩ := ih (row - 1) (by omega) (by omega) (by omega)
      refine ⟨r, by simp [hE, hr], hr0, by omega, hr2, ?_⟩
      intro r' h2 h3
      by_cases h4 : r' = row
      · rw [h4]; exact hE
      · exact hr3 r' h2 (by omega)

theorem count_loop_run (s : ConnectFourState) (piece : Marker) (cond : Int → Int → Bool)
    (dr dc : Int) :
    ∀ (k fuel : Nat) (r0 c0 : Int) (n : Nat),
      (∀ i : Nat, i ≤ k →
        (cond (r0 + i * dr) (c0 + i * dc) = true ↔ inBounds s (r0 + i * dr) (c0 + i * dc))) →
      (∀ i : Nat, i < k → cellIs s piece (r0 + i * dr) (c0 + i * dc) = true) →
      cellIs s piece (r0 + k * dr) (c0 + k * dc) = false →
      k < fuel →
      count_loop s piece cond dr dc fuel r0 c0 n = Except.ok (n + k) := by
  intro k
  induction k with
  | zero =>
    intro fuel r0 c0 n H _ hstop hf
    obtain ⟨f, rfl⟩ : ∃ f, fuel = f + 1 := ⟨fuel - 1, by omega⟩
    have H0 := H 0 (le_refl _)
    simp only [Nat.cast_zero, zero_mul, add_zero] at H0 hstop
    rw [cellIs_eq_false_iff] at hstop
    unfold count_loop
    by_cases hcnd : cond r0 c0 = true
    · have hin := H0.1 hcnd
      have hb : s.board r0 c0 ≠ piece := fun h => hstop ⟨hin, h⟩
      simp [hcnd, readCell_of_inBounds hin, hb]
    · simp [hcnd]
  | succ k ih =>
    intro fuel r0 c0 n H hrun hstop hf
    obtain ⟨f, rfl⟩ : ∃ f, fuel = f + 1 := ⟨fuel - 1, by omega⟩
    have H0 := H 0 (Nat.zero_le _)
    have h0 := hrun 0 (Nat.succ_pos _)
    simp only [Nat.cast_zero, zero_mul, add_zero] at H0 h0
    rw [cellIs_iff] at h0
    have hcnd := H0.2 h0.1
    have key : ∀ i : Nat, r0 + dr + (i : Int) * dr = r0 + ((i + 1 : Nat) : Int) * dr ∧
        c0 + dc + (i : Int) * dc = c0 + ((i + 1 : Nat) : Int) * dc := by
      intro i; push_cast; constructor <;> ring
    have := ih f (r0 + dr) (c0 + dc) (n + 1)
      (by intro i hi; rw [(key i).1, (key i).2]; exact H (i + 1) (by omega))
      (by intro i hi; rw [(key i).1, (key i).2]; exact hrun (i + 1) (by omega))
      (by rw [(key k).1, (key k).2]; exact hstop)
      (by omega)
    unfold count_loop
    simp [hcnd, readCell_of_inBounds h0.1, h0.2, this]
    omega

theorem count_loop_total (s : ConnectFourState) (piece : Marker) (cond : Int → Int → Bool)
    (dr dc r0 c0 : Int)
    (hdr : dr = 0 ∨ dr = 1 ∨ dr = -1) (hdc : dc = 0 ∨ dc = 1 ∨ dc = -1)
    (hne : dr ≠ 0 ∨ dc ≠ 0)
    (hprev : inBounds s (r0 - dr) (c0 - dc))
    (H : ∀ i : Nat,
      (cond (r0 + i * dr) (c0 + i * dc) = true ↔ inBounds s (r0 + i * dr) (c0 + i * dc))) :
    ∃ k, count_loop s piece cond dr dc (scanFuel s) r0 c0 0 = Except.ok k ∧
      (∀ i : Nat, i < k → cellIs s piece (r0 + i * dr) (c0 + i * dc) = true) ∧
      cellIs s piece (r0 + k * dr) (c0 + k * dc) = false := by
  have hbound : ∀ i : Nat, inBounds s (r0 + i * dr) (c0 + i * dc) → i + 1 < scanFuel s := by
    intro i hi
    unfold inBounds at hi hprev
    unfold scanFuel
    rcases hdr with h | h | h <;> rcases hdc with h' | h' | h' <;> subst h <;> subst h' <;>
      simp at hne <;> omega
  have hex : ∃ k : Nat, cellIs s piece (r0 + (k : Int) * dr) (c0 + (k : Int) * dc) = false := by
    refine ⟨scanFuel s, ?_⟩
    rw [cellIs_eq_false_iff]
    intro h
    have := hbound _ h.1
    omega
  classical
  let k := Nat.find hex
  have hk : cellIs s piece (r0 + k * dr) (c0 + k * dc) = false := Nat.find_spec hex
  have hlt : ∀ i : Nat, i < k → cellIs s piece (r0 + i * dr) (c0 + i * dc) = true := by
    intro i hi
    have := Nat.find_min hex hi
    simpa using this
  have hkf : k < scanFuel s := by
    rcases Nat.eq_zero_or_pos k with h0 | hpos
    · rw [h0]; unfold scanFuel; omega
    · have h1 := hlt (k - 1) (by omega)
      rw [cellIs_iff] at h1
      have := hbound _ h1.1
      omega
  refine ⟨k, ?_, hlt, hk⟩
  have := count_loop_run s piece cond dr dc k (scanFuel s) r0 c0 0
    (fun i _ => H i) hlt hk hkf
  simpa using this

theorem window_iff (P : Int → Prop) (kb kf : Nat) (h0 : P 0)
    (hf : ∀ i : Nat, i < kf → P ((i : Int) + 1)) (hf' : ¬ P ((kf : Int) + 1))
    (hb : ∀ i : Nat, i < kb → P (-((i : Int) + 1))) (hb' : ¬ P (-((kb : Int) + 1))) :
    (∃ j : Nat, j < 4 ∧ ∀ i : Nat, i < 4 → P ((i : Int) - j)) ↔ kb + 1 + kf ≥ 4 := by
  have hP : ∀ t : Int, -(kb : Int) ≤ t → t ≤ kf → P t := by
    intro t h1 h2
    rcases lt_trichotomy t 0 with h | h | h
    · have := hb (-t - 1).toNat (by omega)
      have e : -(((-t - 1).toNat : Int) + 1) = t := by omega
      rwa [e] at this
    · rw [h]; exact h0
    · have := hf (t - 1).toNat (by omega)
      have e : (((t - 1).toNat : Int) + 1) = t := by omega
      rwa [e] at this
  constructor
  · rintro ⟨j, hj, hw⟩
    by_contra hlt
    by_cases hjb : j ≤ kb
    · have := hw (kf + 1 + j) (by omega)
      have e : (((kf + 1 + j : Nat) : Int) - j) = (kf : Int) + 1 := by omega
      rw [e] at this
      exact hf' this
    · have := hw (j - kb - 1) (by omega)
      have e : (((j - kb - 1 : Nat) : Int) - j) = -((kb : Int) + 1) := by omega
      rw [e] at this
      exact hb' this
  · intro h
    refine ⟨min kb 3, by omega, ?_⟩
    intro i hi
    apply hP <;> omega

theorem orientation_count (s : ConnectFourState) (dr dc : Int)
    (hdr : dr = 0 ∨ dr = 1 ∨ dr = -1) (hdc : dc = 0 ∨ dc = 1 ∨ dc = -1)
    (hne : dr ≠ 0 ∨ dc ≠ 0)
    (condB condF : Int → Int → Bool) (drb dcb rb cb rf cf : Int)
    (e1 : drb = -dr) (e2 : dcb = -dc)
    (e3 : rb = s.last_row - dr) (e4 : cb = s.last_col - dc)
    (e5 : rf = s.last_row + dr) (e6 : cf = s.last_col + dc)
    (hlast : inBounds s s.last_row s.last_col)
    (HB : ∀ i : Nat, (condB (rb + i * drb) (cb + i * dcb) = true ↔
      inBounds s (rb + i * drb) (cb + i * dcb)))
    (HF : ∀ i : Nat, (condF (rf + i * dr) (cf + i * dc) = true ↔
      inBounds s (rf + i * dr) (cf + i * dc))) :
    ∃ kb kf : Nat,
      count_loop s (s.board s.last_row s.last_col) condB drb dcb (scanFuel s) rb cb 0
        = Except.ok kb ∧
      count_loop s (s.board s.last_row s.last_col) condF dr dc (scanFuel s) rf cf 0
        = Except.ok kf ∧
      (RunThroughLast s (s.board s.last_row s.last_col) (dr, dc) ↔ kb + 1 + kf ≥ 4) := by
  subst e1 e2 e3 e4 e5 e6
  obtain ⟨kb, hkb, hbrun, hbstop⟩ :=
    count_loop_total s (s.board s.last_row s.last_col) condB (-dr) (-dc)
      (s.last_row - dr) (s.last_col - dc)
      (by omega) (by omega) (by omega) (by simpa using hlast) HB
  obtain ⟨kf, hkf, hfrun, hfstop⟩ :=
    count_loop_total s (s.board s.last_row s.last_col) condF dr dc
      (s.last_row + dr) (s.last_col + dc)
      hdr hdc hne (by simpa using hlast) HF
  refine ⟨kb, kf, hkb, hkf, ?_⟩
  have eF : ∀ i : Nat, s.last_row + dr + (i : Int) * dr = s.last_row + ((i : Int) + 1) * dr ∧
      s.last_col + dc + (i : Int) * dc = s.last_col + ((i : Int) + 1) * dc := by
    intro i; constructor <;> ring
  have eB : ∀ i : Nat, s.last_row - dr + (i : Int) * -dr = s.last_row + (-((i : Int) + 1)) * dr ∧
      s.last_col - dc + (i : Int) * -dc = s.last_col + (-((i : Int) + 1)) * dc := by
    intro i; constructor <;> ring
  have hw := window_iff
    (fun t : Int => cellIs s (s.board s.last_row s.last_col)
      (s.last_row + t * dr) (s.last_col + t * dc) = true) kb kf
    (by simp [cellIs_iff, hlast])
    (by intro i hi; have := hfrun i hi; rw [(eF i).1, (eF i).2] at this; exact this)
    (by
      have := hfstop; rw [(eF kf).1, (eF kf).2] at this
      simp only [this]; simp)
    (by intro i hi; have := hbrun i hi; rw [(eB i).1, (eB i).2] at this; exact this)
    (by
      have := hbstop; rw [(eB kb).1, (eB kb).2] at this
      simp only [this]; simp)
  exact hw

theorem winAtLast_iff (s : ConnectFourState) (m : Marker) :
    WinAtLast s m ↔ RunThroughLast s m (0, 1) ∨ RunThroughLast s m (1, 0) ∨
      RunThroughLast s m (1, 1) ∨ RunThroughLast s m (1, -1) := by
  simp [WinAtLast, lineDirs]

theorem get_winner_eq (s : ConnectFourState) (h0 : 0 ≤ s.last_col)
    (hlast : inBounds s s.last_row s.last_col) :
    get_winner s = Except.ok
      (if WinAtLast s (s.board s.last_row s.last_col) then s.board s.last_row s.last_col
       else Marker.Empty) := by
  have hl := hlast
  unfold inBounds at hl
  obtain ⟨kb1, kf1, hb1, hf1, hw1⟩ := orientation_count s 0 1 (by omega) (by omega) (by omega)
    (fun _ col => decide (col ≥ 0)) (fun _ col => decide (col < s.num_cols))
    0 (-1) s.last_row (s.last_col - 1) s.last_row (s.last_col + 1)
    (by omega) (by omega) (by omega) (by omega) (by omega) (by omega) hlast
    (by intro i; unfold inBounds; simp only [decide_eq_true_eq]; omega)
    (by intro i; unfold inBounds; simp only [decide_eq_true_eq]; omega)
  obtain ⟨kb2, kf2, hb2, hf2, hw2⟩ := orientation_count s 1 0 (by omega) (by omega) (by omega)
    (fun row _ => decide (row ≥ 0)) (fun row _ => decide (row < s.num_rows))
    (-1) 0 (s.last_row - 1) s.last_col (s.last_row + 1) s.last_col
    (by omega) (by omega) (by omega) (by omega) (by omega) (by omega) hlast
    (by intro i; unfold inBounds; simp only [decide_eq_true_eq]; omega)
    (by intro i; unfold inBounds; simp only [decide_eq_true_eq]; omega)
  obtain ⟨kb3, kf3, hb3, hf3, hw3⟩ := orientation_count s 1 1 (by omega) (by omega) (by omega)
    (fun row col => decide (row ≥ 0) && decide (col ≥ 0))
    (fun row col => decide (row < s.num_rows) && decide (col < s.num_cols))
    (-1) (-1) (s.last_row - 1) (s.last_col - 1) (s.last_row + 1) (s.last_col + 1)
    (by omega) (by omega) (by omega) (by omega) (by omega) (by omega) hlast
    (by intro i; unfold inBounds; simp only [decide_eq_true_eq, Bool.and_eq_true]; omega)
    (by intro i; unfold inBounds; simp only [decide_eq_true_eq, Bool.and_eq_true]; omega)
  obtain ⟨kb4, kf4, hb4, hf4, hw4⟩ := orientation_count s 1 (-1) (by omega) (by omega) (by omega)
    (fun row col => decide (row ≥ 0) && decide (col < s.num_cols))
    (fun row col => decide (row < s.num_rows) && decide (col ≥ 0))
    (-1) 1 (s.last_row - 1) (s.last_col + 1) (s.last_row + 1) (s.last_col - 1)
    (by omega) (by omega) (by omega) (by omega) (by omega) (by omega) hlast
    (by intro i; unfold inBounds; simp only [decide_eq_true_eq, Bool.and_eq_true]; omega)
    (by intro i; unfold inBounds; simp only [decide_eq_true_eq, Bool.and_eq_true]; omega)
  have hnot : ¬ s.last_col < 0 := by omega
  unfold get_winner
  rw [if_neg hnot, readCell_of_inBounds hlast]
  simp only [bind, Except.bind, hb1, hf1, hb2, hf2, hb3, hf3, hb4, hf4]
  have hW := winAtLast_iff s (s.board s.last_row s.last_col)
  by_cases c1 : kb1 + 1 + kf1 ≥ 4
  · rw [if_pos c1, if_pos (hW.2 (Or.inl (hw1.2 c1)))]
  · have n1 := mt hw1.1 c1
    rw [if_neg c1]
    by_cases c2 : kb2 + 1 + kf2 ≥ 4
    · rw [if_pos c2, if_pos (hW.2 (Or.inr (Or.inl (hw2.2 c2))))]
    · have n2 := mt hw2.1 c2
      rw [if_neg c2]
      by_cases c3 : kb3 + 1 + kf3 ≥ 4
      · rw [if_pos c3, if_pos (hW.2 (Or.inr (Or.inr (Or.inl (hw3.2 c3)))))]
      · have n3 := mt hw3.1 c3
        rw [if_neg c3]
        by_cases c4 : kf4 + 1 + kb4 ≥ 4
        · rw [if_pos c4, if_pos (hW.2 (Or.inr (Or.inr (Or.inr (hw4.2 (by omega))))))]
        · have n4 : ¬ RunThroughLast s (s.board s.last_row s.last_col) (1, -1) :=
            fun h => c4 (by have := hw4.1 h; omega)
          have nW : ¬ WinAtLast s (s.board s.last_row s.last_col) := by
            intro h
            rcases hW.1 h with h | h | h | h
            · exact n1 h
            · exact n2 h
            · exact n3 h
            · exact n4 h
          rw [if_neg c4, if_neg nW]

theorem get_winner_no_last (s : ConnectFourState) (h : s.last_col < 0) :
    get_winner s = Except.ok Marker.Empty := by
  unfold get_winner
  rw [if_pos h]

theorem get_winner_out_of_bounds (s : ConnectFourState) (h0 : 0 ≤ s.last_col)
    (h : ¬ inBounds s s.last_row s.last_col) :
    get_winner s = Except.error Error.OutOfBounds := by
  unfold get_winner
  rw [if_neg (by omega), readCell_of_not_inBounds h]
  rfl

theorem get_winner_ok_iff (s : ConnectFourState) :
    (∃ w, get_winner s = Except.ok w) ↔
      (s.last_col < 0 ∨ inBounds s s.last_row s.last_col) := by
  constructor
  · rintro ⟨w, hw⟩
    by_contra hcon
    push_neg at hcon
    rw [get_winner_out_of_bounds s (by omega) hcon.2] at hw
    cases hw
  · intro h
    by_cases h0 : s.last_col < 0
    · exact ⟨_, get_winner_no_last s h0⟩
    · have hin : inBounds s s.last_row s.last_col := by
        rcases h with h | h
        · exact absurd h h0
        · exact h
      exact ⟨_, get_winner_eq s (by omega) hin⟩

theorem do_move_success (inv : ConnectFourState → Bool) (s : ConnectFourState) (c : Int)
    (m : Marker) (hinv : inv s = true) (hc : 0 ≤ c ∧ c < s.num_cols)
    (htop : readCell s 0 c = Except.ok Marker.Empty)
    (hm : player_markers s.player_to_move = some m) :
    ∃ r : Int, 0 ≤ r ∧ r < s.num_rows ∧ s.board r c = Marker.Empty ∧
      (∀ r' : Int, r < r' → r' < s.num_rows → s.board r' c ≠ Marker.Empty) ∧
      do_move inv s c = (Except.ok (),
        { s with
          board := setCell s.board r c m
          last_col := c
          last_row := r
          player_to_move := 3 - s.player_to_move }) := by
  have htop' := (readCell_ok_iff s 0 c Marker.Empty).1 htop
  have hrows : 0 < s.num_rows := htop'.1.2.1
  obtain ⟨r, hr, hr0, hr1, hr2, hr3⟩ :=
    do_move_loop_spec s c htop'.2 hc (s.num_rows.toNat + 1) (s.num_rows - 1)
      (by omega) (by omega) (by omega)
  refine ⟨r, hr0, by omega, hr2, fun r' h1 h2 => hr3 r' h1 (by omega), ?_⟩
  unfold do_move
  simp [hc.1, hc.2, htop, hinv, hr, hm]

theorem do_move_ok_inv (inv : ConnectFourState → Bool) (s s' : ConnectFourState) (c : Int)
    (h : do_move inv s c = (Except.ok (), s')) :
    inv s = true ∧ (0 ≤ c ∧ c < s.num_cols) ∧ readCell s 0 c = Except.ok Marker.Empty ∧
      ∃ m, player_markers s.player_to_move = some m := by
  unfold do_move at h
  split at h
  · cases h
  · rename_i hc
    push_neg at hc
    split at h
    · cases h
    · rename_i top htop
      split at h
      · cases h
      · rename_i htopE
        push_neg at htopE
        split at h
        · cases h
        · rename_i hinv
          split at h
          · cases h
          · split at h
            · cases h
            · rename_i m hm
              refine ⟨by simpa using hinv, hc, by rw [htop, htopE], m, hm⟩

theorem do_move_error_state (inv : ConnectFourState → Bool) (s : ConnectFourState) (c : Int)
    (e : Error) (h : (do_move inv s c).1 = Except.error e) : (do_move inv s c).2 = s := by
  unfold do_move at h ⊢
  split
  · rfl
  · split
    · rfl
    · split
      · rfl
      · split
        · rfl
        · split
          · rfl
          · split
            · rfl
            · rename_i h1 h2 h3 h4 h5 h6 h7 h8 h9
              simp_all

theorem scanInvariant_init (nrows ncols : Int) : ScanInvariant (init nrows ncols) := by
  refine ⟨Or.inl rfl, fun _ _ _ => rfl, ?_⟩
  intro h
  simp [init] at h

theorem run_of_line (s : ConnectFourState) (m : Marker) (r c : Int) (d : Int × Int)
    (j : Nat) (hj : j < 4) (hr : r + j * d.1 = s.last_row) (hc : c + j * d.2 = s.last_col)
    (hline : ∀ i : Nat, i < 4 → cellIs s m (r + i * d.1) (c + i * d.2) = true) :
    RunThroughLast s m d := by
  refine ⟨j, hj, ?_⟩
  intro i hi
  have e1 : s.last_row + ((i : Int) - j) * d.1 = r + i * d.1 := by rw [← hr]; ring
  have e2 : s.last_col + ((i : Int) - j) * d.2 = c + i * d.2 := by rw [← hc]; ring
  rw [e1, e2]
  exact hline i hi

theorem line_of_run (s : ConnectFourState) (m : Marker) (d : Int × Int) (hd : d ∈ lineDirs)
    (h : RunThroughLast s m d) : FourInARow s m := by
  obtain ⟨j, _, hrun⟩ := h
  refine ⟨s.last_row + (0 - (j : Int)) * d.1, s.last_col + (0 - (j : Int)) * d.2, d, hd, ?_⟩
  intro i hi
  have e1 : s.last_row + (0 - (j : Int)) * d.1 + i * d.1 = s.last_row + ((i : Int) - j) * d.1 := by
    ring
  have e2 : s.last_col + (0 - (j : Int)) * d.2 + i * d.2 = s.last_col + ((i : Int) - j) * d.2 := by
    ring
  rw [e1, e2]
  exact hrun i hi

/-- Under the scan invariant, `get_winner` reports the player marker `m`
exactly when the board holds a line of four `m`. -/
theorem get_winner_iff_line (s : ConnectFourState) (hs : ScanInvariant s) (m : Marker)
    (hm : m ≠ Marker.Empty) :
    get_winner s = Except.ok m ↔ FourInARow s m := by
  obtain ⟨_, hnone, hsome⟩ := hs
  by_cases h0 : s.last_col < 0
  · rw [get_winner_no_last s h0]
    constructor
    · intro h
      injection h with h
      exact absurd h.symm hm
    · rintro ⟨r, c, d, _, hline⟩
      have := hline 0 (by omega)
      rw [cellIs_iff, hnone h0] at this
      exact absurd this.2.symm hm
  · obtain ⟨hin, hpiece, hlines⟩ := hsome (by omega)
    rw [get_winner_eq s (by omega) hin]
    constructor
    · intro h
      injection h with h
      by_cases hW : WinAtLast s (s.board s.last_row s.last_col)
      · rw [if_pos hW] at h
        obtain ⟨d, hd, hrun⟩ := hW
        rw [h] at hrun
        exact line_of_run s m d hd hrun
      · rw [if_neg hW] at h
        exact absurd h.symm hm
    · rintro ⟨r, c, d, hd, hline⟩
      obtain ⟨j, hj, hr, hc⟩ := hlines m hm r c d hd hline
      have hcell := hline j hj
      rw [hr, hc, cellIs_iff] at hcell
      have hrun := run_of_line s m r c d j hj hr hc hline
      rw [hcell.2]
      rw [if_pos ⟨d, hd, hrun⟩]

theorem marker_cases (m : Marker) (hm : m ≠ Marker.Empty) :
    m = Marker.PlayerOne ∨ m = Marker.PlayerTwo := by
  cases m
  · exact absurd rfl hm
  · exact Or.inl rfl
  · exact Or.inr rfl

theorem get_winner_empty_iff (s : ConnectFourState) (hs : ScanInvariant s) :
    get_winner s = Except.ok Marker.Empty ↔
      (¬ FourInARow s Marker.PlayerOne ∧ ¬ FourInARow s Marker.PlayerTwo) := by
  have h1 := get_winner_iff_line s hs Marker.PlayerOne (by decide)
  have h2 := get_winner_iff_line s hs Marker.PlayerTwo (by decide)
  constructor
  · intro h
    rw [← h1, ← h2, h]
    constructor <;> (intro h'; cases h')
  · rintro ⟨n1, n2⟩
    have hok : ∃ w, get_winner s = Except.ok w := by
      rw [get_winner_ok_iff]
      by_cases h0 : s.last_col < 0
      · exact Or.inl h0
      · exact Or.inr (hs.2.2 (by omega)).1
    obtain ⟨w, hw⟩ := hok
    by_cases hwE : w = Marker.Empty
    · rw [hw, hwE]
    · rcases marker_cases w hwE with h | h
      · rw [h] at hw; exact absurd (h1.1 hw) n1
      · rw [h] at hw; exact absurd (h2.1 hw) n2

theorem has_moves_true_winner (inv : ConnectFourState → Bool) (s : ConnectFourState)
    (h : has_moves inv s = Except.ok true) :
    inv s = true ∧ get_winner s = Except.ok Marker.Empty := by
  unfold has_moves at h
  split at h
  · cases h
  · rename_i hinv
    split at h
    · cases h
    · rename_i w hw
      split at h
      · cases h
      · rename_i hwE
        push_neg at hwE
        exact ⟨by simpa using hinv, by rw [hw, hwE]⟩

theorem player_markers_some (p : Int) (m : Marker) (h : player_markers p = some m) :
    (p = 0 ∧ m = Marker.Empty) ∨ (p = 1 ∧ m = Marker.PlayerOne) ∨
      (p = 2 ∧ m = Marker.PlayerTwo) := by
  unfold player_markers at h
  split at h
  · injection h with h; exact Or.inl ⟨by assumption, h.symm⟩
  · split at h
    · injection h with h; exact Or.inr (Or.inl ⟨by assumption, h.symm⟩)
    · split at h
      · injection h with h; exact Or.inr (Or.inr ⟨by assumption, h.symm⟩)
      · cases h

theorem scanInvariant_step (inv : ConnectFourState → Bool) (s s' : ConnectFourState) (c : Int)
    (hs : ScanInvariant s) (hm : has_moves inv s = Except.ok true)
    (hd : do_move inv s c = (Except.ok (), s')) : ScanInvariant s' := by
  obtain ⟨hinv, hwin⟩ := has_moves_true_winner inv s hm
  obtain ⟨_, hc, htop, m, hmk⟩ := do_move_ok_inv inv s s' c hd
  obtain ⟨r, hr0, hr1, hrE, _, hdo⟩ := do_move_success inv s c m hinv hc htop hmk
  rw [hdo] at hd
  injection hd with _ hs'
  subst hs'
  have hptm := hs.1
  have hmne : m ≠ Marker.Empty := by
    rcases player_markers_some _ _ hmk with h | h | h
    · omega
    · rw [h.2]; decide
    · rw [h.2]; decide
  have hnoline : ∀ m' : Marker, m' ≠ Marker.Empty → ¬ FourInARow s m' := by
    intro m' hm'
    rcases marker_cases m' hm' with h | h
    · rw [h]; exact ((get_winner_empty_iff s hs).1 hwin).1
    · rw [h]; exact ((get_winner_empty_iff s hs).1 hwin).2
  refine ⟨by show 3 - s.player_to_move = 1 ∨ 3 - s.player_to_move = 2; omega, ?_, ?_⟩
  · intro h
    have : c < 0 := h
    omega
  · intro _
    refine ⟨⟨hr0, hr1, hc.1, hc.2⟩, by simp [setCell, hmne], ?_⟩
    intro m' hm' r0 c0 d hd hline
    by_contra hcon
    push_neg at hcon
    apply hnoline m' hm'
    refine ⟨r0, c0, d, hd, ?_⟩
    intro i hi
    have h1 := hline i hi
    rw [cellIs_iff] at h1 ⊢
    refine ⟨h1.1, ?_⟩
    have h2 := h1.2
    have hne : ¬ (r0 + i * d.1 = r ∧ c0 + i * d.2 = c) := fun h => hcon i hi h.1 h.2
    simpa [setCell, hne] using h2

theorem reachable_scanInvariant (inv : ConnectFourState → Bool) (s : ConnectFourState)
    (h : Reachable inv s) : ScanInvariant s := by
  induction h with
  | empty nrows ncols _ _ => exact scanInvariant_init nrows ncols
  | move s s' c _ hm hd ih => exact scanInvariant_step inv s s' c ih hm hd

theorem mem_columns (s : ConnectFourState) (c : Int) :
    c ∈ columns s ↔ 0 ≤ c ∧ c < s.num_cols := by
  unfold columns
  simp only [List.mem_map, List.mem_range]
  constructor
  · rintro ⟨a, ha, rfl⟩
    simp only [Int.ofNat_eq_coe]
    omega
  · intro h
    exact ⟨c.toNat, by omega, by simp only [Int.ofNat_eq_coe]; omega⟩

theorem mem_rows (s : ConnectFourState) (r : Int) :
    r ∈ rows s ↔ 0 ≤ r ∧ r < s.num_rows := by
  unfold rows
  simp only [List.mem_map, List.mem_range]
  constructor
  · rintro ⟨a, ha, rfl⟩
    simp only [Int.ofNat_eq_coe]
    omega
  · intro h
    exact ⟨r.toNat, by omega, by simp only [Int.ofNat_eq_coe]; omega⟩

theorem columns_pairwise (s : ConnectFourState) : (columns s).Pairwise (· < ·) := by
  unfold columns
  rw [List.pairwise_map]
  exact List.Pairwise.imp (fun h => by simpa using h) (List.pairwise_lt_range _)

theorem has_moves_loop_true_iff (s : ConnectFourState) (l : List Int)
    (hl : ∀ c ∈ l, 0 ≤ c ∧ c < s.num_cols) :
    has_moves_loop s l = Except.ok true ↔
      ∃ c ∈ l, readCell s 0 c = Except.ok Marker.Empty := by
  induction l with
  | nil => simp [has_moves_loop]
  | cons col rest ih =>
    have ih' := ih (fun c hc => hl c (List.mem_cons_of_mem _ hc))
    have hcol := hl col (List.mem_cons_self _ _)
    unfold has_moves_loop
    by_cases hin : inBounds s 0 col
    · rw [readCell_of_inBounds hin]
      by_cases hE : s.board 0 col = Marker.Empty
      · simp only [hE, if_true, true_iff]
        exact ⟨col, List.mem_cons_self _ _, by rw [readCell_of_inBounds hin, hE]⟩
      · simp only [hE, if_false]
        rw [ih']
        constructor
        · rintro ⟨c, hc, h⟩
          exact ⟨c, List.mem_cons_of_mem _ hc, h⟩
        · rintro ⟨c, hc, h⟩
          rcases List.mem_cons.1 hc with h' | h'
          · rw [h', readCell_of_inBounds hin] at h
            injection h with h
            exact absurd h hE
          · exact ⟨c, h', h⟩
    · rw [readCell_of_not_inBounds hin]
      constructor
      · intro h; cases h
      · rintro ⟨c, hc, h⟩
        have hc' := hl c hc
        have := ((readCell_ok_iff s 0 c _).1 h).1
        unfold inBounds at hin this
        omega

theorem has_moves_loop_false_iff (s : ConnectFourState) (l : List Int) :
    has_moves_loop s l = Except.ok false ↔
      ∀ c ∈ l, ∃ m, m ≠ Marker.Empty ∧ readCell s 0 c = Except.ok m := by
  induction l with
  | nil => simp [has_moves_loop]
  | cons col rest ih =>
    unfold has_moves_loop
    by_cases hin : inBounds s 0 col
    · rw [readCell_of_inBounds hin]
      by_cases hE : s.board 0 col = Marker.Empty
      · simp only [hE, if_true]
        constructor
        · intro h; cases h
        · intro h
          obtain ⟨m, hm, hr⟩ := h col (List.mem_cons_self _ _)
          rw [readCell_of_inBounds hin, hE] at hr
          injection hr with hr
          exact absurd hr.symm hm
      · simp only [hE, if_false]
        rw [ih]
        constructor
        · intro h c hc
          rcases List.mem_cons.1 hc with h' | h'
          · exact ⟨s.board 0 col, hE, by rw [h', readCell_of_inBounds hin]⟩
          · exact h c h'
        · intro h c hc
          exact h c (List.mem_cons_of_mem _ hc)
    · rw [readCell_of_not_inBounds hin]
      constructor
      · intro h; cases h
      · intro h
        obtain ⟨m, _, hr⟩ := h col (List.mem_cons_self _ _)
        rw [readCell_of_not_inBounds hin] at hr
        cases hr

theorem get_moves_loop_eq (s : ConnectFourState) (l : List Int)
    (hl : ∀ c ∈ l, inBounds s 0 c) (moves : List Int) :
    get_moves_loop s l moves =
      Except.ok (moves ++ l.filter (fun c => decide (s.board 0 c = Marker.Empty))) := by
  induction l generalizing moves with
  | nil => simp [get_moves_loop]
  | cons col rest ih =>
    have hin := hl col (List.mem_cons_self _ _)
    have ih' := ih (fun c hc => hl c (List.mem_cons_of_mem _ hc))
    unfold get_moves_loop
    rw [readCell_of_inBounds hin]
    by_cases hE : s.board 0 col = Marker.Empty
    · simp [hE, ih', List.filter_cons]
    · simp [hE, ih', List.filter_cons]

/-- The value of `get_moves` on a state that passes `check_invariant`, whose
last move is none or on the board, and whose board has a top row. -/
theorem get_moves_eq (inv : ConnectFourState → Bool) (s : ConnectFourState) (w : Marker)
    (hinv : inv s = true) (hw : get_winner s = Except.ok w) (hrows : 0 < s.num_rows) :
    get_moves inv s = Except.ok
      (if w ≠ Marker.Empty then []
       else (columns s).filter (fun c => decide (s.board 0 c = Marker.Empty))) := by
  unfold get_moves
  simp only [hinv, hw]
  by_cases hE : w = Marker.Empty
  · have hl : ∀ c ∈ columns s, inBounds s 0 c := by
      intro c hc
      have := (mem_columns s c).1 hc
      exact ⟨le_refl _, hrows, this.1, this.2⟩
    simp [hE, get_moves_loop_eq s (columns s) hl]
  · simp [hE]

theorem naive_scan_iff (s : ConnectFourState) (m : Marker) :
    naive_scan s m = true ↔ FourInARow s m := by
  unfold naive_scan FourInARow
  simp only [List.any_eq_true, List.all_eq_true, List.mem_range]
  constructor
  · rintro ⟨r, _, c, _, d, hd, h⟩
    exact ⟨r, c, d, hd, h⟩
  · rintro ⟨r, c, d, hd, h⟩
    have h0 := h 0 (by omega)
    simp only [Nat.cast_zero, zero_mul, add_zero, cellIs_iff] at h0
    exact ⟨r, (mem_rows s r).2 ⟨h0.1.1, h0.1.2.1⟩, c,
      (mem_columns s c).2 ⟨h0.1.2.2.1, h0.1.2.2.2⟩, d, hd, h⟩

theorem reachable_dims (inv : ConnectFourState → Bool) (s : ConnectFourState)
    (h : Reachable inv s) : 0 < s.num_rows ∧ 0 < s.num_cols := by
  induction h with
  | empty nrows ncols hr hc => exact ⟨hr, hc⟩
  | move s s' c _ hm hd ih =>
    obtain ⟨hinv, _⟩ := has_moves_true_winner inv s hm
    obtain ⟨_, hc, htop, m, hmk⟩ := do_move_ok_inv inv s s' c hd
    obtain ⟨r, _, _, _, _, hdo⟩ := do_move_success inv s c m hinv hc htop hmk
    rw [hdo] at hd
    injection hd with _ hs'
    subst hs'
    exact ih

theorem reachable_last (inv : ConnectFourState → Bool) (s : ConnectFourState)
    (h : Reachable inv s) : s.last_col < 0 ∨ inBounds s s.last_row s.last_col := by
  have hs := reachable_scanInvariant inv s h
  by_cases h0 : s.last_col < 0
  · exact Or.inl h0
  · exact Or.inr (hs.2.2 (by omega)).1

theorem has_moves_eq (inv : ConnectFourState → Bool) (s : ConnectFourState) (w : Marker)
    (hinv : inv s = true) (hw : get_winner s = Except.ok w) :
    has_moves inv s =
      if w ≠ Marker.Empty then Except.ok false else has_moves_loop s (columns s) := by
  unfold has_moves
  simp only [hinv, hw]
  rfl

theorem has_moves_ok_inv (inv : ConnectFourState → Bool) (s : ConnectFourState) (b : Bool)
    (h : has_moves inv s = Except.ok b) :
    inv s = true ∧ ∃ w, get_winner s = Except.ok w := by
  unfold has_moves at h
  split at h
  · cases h
  · rename_i hinv
    split at h
    · cases h
    · rename_i w hw
      exact ⟨by simpa using hinv, w, hw⟩

theorem do_move_illegal (inv : ConnectFourState → Bool) (s : ConnectFourState) (c : Int)
    (h : c < 0 ∨ s.num_cols ≤ c ∨ ∃ m, m ≠ Marker.Empty ∧ readCell s 0 c = Except.ok m) :
    do_move inv s c = (Except.error Error.IllegalMove, s) := by
  unfold do_move
  by_cases hc : 0 ≤ c ∧ c < s.num_cols
  · rcases h with h | h | ⟨m, hm, hr⟩
    · omega
    · omega
    · simp [hc.1, hc.2, hr, hm]
  · rw [if_pos hc]

theorem reachable_play (inv : ConnectFourState → Bool) (moves : List Int) :
    ∀ s : ConnectFourState, Reachable inv s → (play inv s moves).1 = Except.ok () →
      Reachable inv (play inv s moves).2 := by
  induction moves with
  | nil => intro s hs _; exact hs
  | cons m rest ih =>
    intro s hs h
    unfold play at h ⊢
    cases hm : has_moves inv s with
    | error e => rw [hm] at h; cases h
    | ok b =>
      cases b with
      | false => rw [hm] at h; cases h
      | true =>
        rw [hm] at h
        simp only at h ⊢
        rcases hd : do_move inv s m with ⟨o, s'⟩
        rw [hd] at h
        cases o with
        | error e => cases h
        | ok u =>
          cases u
          simp only at h ⊢
          exact ih s' (Reachable.move s s' m hs hm hd) h

/-- The fuel `scanFuel s` suffices: `get_winner` never runs out of fuel. -/
theorem get_winner_fuel_suffices (s : ConnectFourState) :
    get_winner s ≠ Except.error Error.OutOfFuel := by
  by_cases h0 : s.last_col < 0
  · rw [get_winner_no_last s h0]
    intro h; cases h
  · by_cases hin : inBounds s s.last_row s.last_col
    · rw [get_winner_eq s (by omega) hin]
      intro h; cases h
    · rw [get_winner_out_of_bounds s (by omega) hin]
      intro h; cases h

/-- The fuel `num_rows + 1` suffices: `do_move` never runs out of fuel. -/
theorem do_move_fuel_suffices (inv : ConnectFourState → Bool) (s : ConnectFourState)
    (c : Int) : (do_move inv s c).1 ≠ Except.error Error.OutOfFuel := by
  by_cases hc : 0 ≤ c ∧ c < s.num_cols
  · cases htop : readCell s 0 c with
    | error e =>
      have he : e = Error.OutOfBounds := by
        unfold readCell at htop
        split at htop
        · cases htop
        · injection htop with htop; exact htop.symm
      unfold do_move
      simp [hc.1, hc.2, htop, he]
    | ok top =>
      by_cases hE : top = Marker.Empty
      · subst hE
        by_cases hinv : inv s = true
        · cases hm : player_markers s.player_to_move with
          | none =>
            have htop' := (readCell_ok_iff s 0 c Marker.Empty).1 htop
            obtain ⟨r, hr, _⟩ :=
              do_move_loop_spec s c htop'.2 hc (s.num_rows.toNat + 1) (s.num_rows - 1)
                (by have := htop'.1.2.1; omega) (by omega) (by omega)
            unfold do_move
            simp [hc.1, hc.2, htop, hinv, hr, hm]
          | some m =>
            obtain ⟨r, _, _, _, _, hdo⟩ := do_move_success inv s c m hinv hc htop hm
            rw [hdo]
            intro h; cases h
        · unfold do_move
          simp [hc.1, hc.2, htop, hinv]
      · rw [do_move_illegal inv s c (Or.inr (Or.inr ⟨top, hE, htop⟩))]
        intro h; cases h
  · have : c < 0 ∨ s.num_cols ≤ c := by omega
    rw [do_move_illegal inv s c (this.elim Or.inl (fun h => Or.inr (Or.inl h)))]
    intro h; cases h

/-- What a successful `do_move` did. -/
theorem do_move_ok_state (inv : ConnectFourState → Bool) (s s' : ConnectFourState) (c : Int)
    (h : do_move inv s c = (Except.ok (), s')) :
    ∃ (r : Int) (m : Marker), player_markers s.player_to_move = some m ∧
      inBounds s r c ∧ s.board r c = Marker.Empty ∧
      (∀ r' : Int, r < r' → r' < s.num_rows → s.board r' c ≠ Marker.Empty) ∧
      s' = { s with
        board := setCell s.board r c m
        last_col := c
        last_row := r
        player_to_move := 3 - s.player_to_move } := by
  obtain ⟨hinv, hc, htop, m, hm⟩ := do_move_ok_inv inv s s' c h
  obtain ⟨r, hr0, hr1, hE, hlow, hdo⟩ := do_move_success inv s c m hinv hc htop hm
  rw [hdo] at h
  injection h with _ hs'
  exact ⟨r, m, hm, ⟨hr0, hr1, hc.1, hc.2⟩, hE, hlow, hs'.symm⟩

theorem gravity_init (nrows ncols : Int) : Gravity (init nrows ncols) := by
  intro r r' c _ _ _ _ _ h
  exact absurd rfl h

theorem gravity_step (inv : ConnectFourState → Bool) (s s' : ConnectFourState) (c : Int)
    (hg : Gravity s) (h : do_move inv s c = (Except.ok (), s')) : Gravity s' := by
  obtain ⟨r, m, _, hin, hE, hlow, rfl⟩ := do_move_ok_state inv s s' c h
  intro r1 r2 c1 h0 h12 h2 hc0 hc1 hne
  have h2' : r2 < s.num_rows := h2
  have hc1' : c1 < s.num_cols := hc1
  simp only [setCell] at hne ⊢
  by_cases h1 : r1 = r ∧ c1 = c
  · obtain ⟨rfl, rfl⟩ := h1
    have hne2 : ¬ (r2 = r1 ∧ c1 = c1) := by omega
    rw [if_neg hne2]
    exact hlow r2 h12 h2'
  · rw [if_neg h1] at hne
    have hb := hg r1 r2 c1 h0 h12 h2' hc0 hc1' hne
    by_cases h3 : r2 = r ∧ c1 = c
    · obtain ⟨rfl, rfl⟩ := h3
      exact absurd hE hb
    · rw [if_neg h3]
      exact hb

theorem movesFrom_gravity (inv : ConnectFourState → Bool) (s0 s : ConnectFourState) (n : Nat)
    (h0 : Gravity s0) (h : MovesFrom inv s0 n s) : Gravity s := by
  induction h with
  | zero => exact h0
  | succ n s s' c _ hd ih => exact gravity_step inv s s' c ih hd

theorem movesFrom_dims (inv : ConnectFourState → Bool) (s0 s : ConnectFourState) (n : Nat)
    (h : MovesFrom inv s0 n s) : s.num_rows = s0.num_rows ∧ s.num_cols = s0.num_cols := by
  induction h with
  | zero => exact ⟨rfl, rfl⟩
  | succ n s s' c _ hd ih =>
    obtain ⟨r, m, _, _, _, _, rfl⟩ := do_move_ok_state inv s s' c hd
    exact ih

theorem movesFrom_player (inv : ConnectFourState → Bool) (nrows ncols : Int)
    (s : ConnectFourState) (n : Nat) (h : MovesFrom inv (init nrows ncols) n s) :
    (s.player_to_move = 1 ∨ s.player_to_move = 2) ∧ (s.player_to_move = 1 ↔ n % 2 = 0) := by
  induction h with
  | zero => exact ⟨Or.inl rfl, by simp [init]⟩
  | succ n s s' c _ hd ih =>
    obtain ⟨r, m, _, _, _, _, rfl⟩ := do_move_ok_state inv s s' c hd
    show (3 - s.player_to_move = 1 ∨ 3 - s.player_to_move = 2) ∧
      (3 - s.player_to_move = 1 ↔ (n + 1) % 2 = 0)
    omega

theorem reachable_movesFrom (inv : ConnectFourState → Bool) (s : ConnectFourState)
    (h : Reachable inv s) :
    ∃ (nrows ncols : Int) (n : Nat), MovesFrom inv (init nrows ncols) n s := by
  induction h with
  | empty nrows ncols _ _ => exact ⟨nrows, ncols, 0, MovesFrom.zero⟩
  | move s s' c _ _ hd ih =>
    obtain ⟨nrows, ncols, n, hn⟩ := ih
    exact ⟨nrows, ncols, n + 1, MovesFrom.succ n s s' c hn hd⟩

theorem movesFrom_play (inv : ConnectFourState → Bool) (s0 : ConnectFourState)
    (moves : List Int) :
    ∀ (n : Nat) (s : ConnectFourState), MovesFrom inv s0 n s →
      (play inv s moves).1 = Except.ok () →
      MovesFrom inv s0 (n + moves.length) (play inv s moves).2 := by
  induction moves with
  | nil => intro n s hs _; exact hs
  | cons m rest ih =>
    intro n s hs h
    unfold play at h ⊢
    cases hm : has_moves inv s with
    | error e => rw [hm] at h; cases h
    | ok b =>
      cases b with
      | false => rw [hm] at h; cases h
      | true =>
        rw [hm] at h
        simp only at h ⊢
        rcases hd : do_move inv s m with ⟨o, s'⟩
        rw [hd] at h
        cases o with
        | error e => cases h
        | ok u =>
          cases u
          simp only at h ⊢
          have := ih (n + 1) s' (MovesFrom.succ n s s' m hs hd) h
          rw [List.length_cons]
          have e : n + (rest.length + 1) = n + 1 + rest.length := by omega
          rw [e]
          exact this

theorem mem_cells (s : ConnectFourState) (p : Int × Int) :
    p ∈ cells s ↔ inBounds s p.1 p.2 := by
  obtain ⟨a, b⟩ := p
  unfold cells inBounds
  rw [List.pair_mem_product, mem_rows, mem_columns]
  tauto

theorem cells_nodup (s : ConnectFourState) : (cells s).Nodup := by
  unfold cells
  apply List.Nodup.product
  · have : (rows s).Pairwise (· < ·) := by
      unfold rows
      rw [List.pairwise_map]
      exact List.Pairwise.imp (fun h => by simpa using h) (List.pairwise_lt_range _)
    exact this.imp (fun h => ne_of_lt h)
  · exact (columns_pairwise s).imp (fun h => ne_of_lt h)

/-- Turning one member of a duplicate-free list from rejected to accepted
raises the count by one. -/
theorem countP_succ_of_update {α : Type} (l : List α) (hl : l.Nodup) (x : α) (hx : x ∈ l)
    (p q : α → Bool) (hpx : p x = false) (hqx : q x = true)
    (hother : ∀ y, y ≠ x → q y = p y) : l.countP q = l.countP p + 1 := by
  induction l with
  | nil => cases hx
  | cons a t ih =>
    have hat : a ∉ t := (List.nodup_cons.1 hl).1
    have ht : t.Nodup := (List.nodup_cons.1 hl).2
    by_cases hax : a = x
    · subst hax
      have hsame : t.countP q = t.countP p := by
        apply List.countP_congr
        intro y hy
        have hne : y ≠ a := fun h => hat (h ▸ hy)
        rw [hother y hne]
      rw [List.countP_cons_of_pos _ _ hqx, List.countP_cons_of_neg _ _ (by simp [hpx]), hsame]
    · have hxt : x ∈ t := by
        rcases List.mem_cons.1 hx with h | h
        · exact absurd h.symm hax
        · exact h
      have := ih ht hxt
      rw [List.countP_cons, List.countP_cons, this, hother a hax]
      omega

theorem countNonEmpty_init (nrows ncols : Int) : countNonEmpty (init nrows ncols) = 0 := by
  unfold countNonEmpty
  rw [List.countP_eq_zero]
  intro p _
  simp [init]

theorem countNonEmpty_step (inv : ConnectFourState → Bool) (s s' : ConnectFourState) (c : Int)
    (hp : s.player_to_move = 1 ∨ s.player_to_move = 2)
    (h : do_move inv s c = (Except.ok (), s')) :
    countNonEmpty s' = countNonEmpty s + 1 := by
  obtain ⟨r, m, hm, hin, hE, _, rfl⟩ := do_move_ok_state inv s s' c h
  have hmne : m ≠ Marker.Empty := by
    rcases player_markers_some _ _ hm with h' | h' | h'
    · omega
    · rw [h'.2]; decide
    · rw [h'.2]; decide
  unfold countNonEmpty
  have hcells : cells { s with
      board := setCell s.board r c m
      last_col := c
      last_row := r
      player_to_move := 3 - s.player_to_move } = cells s := rfl
  rw [hcells]
  apply countP_succ_of_update (cells s) (cells_nodup s) (r, c) ((mem_cells s (r, c)).2 hin)
  · simp [hE]
  · simp [setCell, hmne]
  · intro y hy
    have hne : ¬ (y.1 = r ∧ y.2 = c) := by
      intro h'
      apply hy
      exact Prod.ext h'.1 h'.2
    simp [setCell, hne]

theorem movesFrom_count (inv : ConnectFourState → Bool) (nrows ncols : Int)
    (s : ConnectFourState) (n : Nat) (h : MovesFrom inv (init nrows ncols) n s) :
    countNonEmpty s = n := by
  generalize hs0 : init nrows ncols = s0 at h
  induction h with
  | zero => rw [← hs0]; exact countNonEmpty_init nrows ncols
  | succ n s s' c hs hd ih =>
    have hp := (movesFrom_player inv nrows ncols s n (hs0 ▸ hs)).1
    rw [countNonEmpty_step inv s s' c hp hd, ih]

/-- After at least one move from the empty board, the cell at `last_move` is
on the board, is not `Empty`, has only `Empty` cells above it in its column,
and holds the marker of the player other than `player_to_move`. -/
theorem movesFrom_last (inv : ConnectFourState → Bool) (nrows ncols : Int)
    (s : ConnectFourState) (n : Nat) (h : MovesFrom inv (init nrows ncols) n s)
    (hn : 1 ≤ n) :
    inBounds s s.last_row s.last_col ∧
    s.board s.last_row s.last_col ≠ Marker.Empty ∧
    (∀ r : Int, 0 ≤ r → r < s.last_row → s.board r s.last_col = Marker.Empty) ∧
    player_markers (3 - s.player_to_move) = some (s.board s.last_row s.last_col) := by
  cases h with
  | zero => omega
  | succ n s1 _ c hs hd =>
    have hp := (movesFrom_player inv nrows ncols s1 n hs).1
    have hg := movesFrom_gravity inv _ s1 n (gravity_init nrows ncols) hs
    obtain ⟨r, m, hm, hin, hE, _, rfl⟩ := do_move_ok_state inv s1 s c hd
    have hmne : m ≠ Marker.Empty := by
      rcases player_markers_some _ _ hm with h' | h' | h'
      · omega
      · rw [h'.2]; decide
      · rw [h'.2]; decide
    refine ⟨hin, by simp [setCell, hmne], ?_, ?_⟩
    · intro r0 h0 h1
      have h1' : r0 < r := h1
      have hne : ¬ (r0 = r ∧ c = c) := by omega
      show (if r0 = r ∧ c = c then m else s1.board r0 c) = Marker.Empty
      rw [if_neg hne]
      by_contra hcon
      exact hg r0 r c h0 h1' hin.2.1 hin.2.2.1 hin.2.2.2 hcon hE
    · show player_markers (3 - (3 - s1.player_to_move)) = some (setCell s1.board r c m r c)
      have e : 3 - (3 - s1.player_to_move) = s1.player_to_move := by omega
      rw [e, hm]
      simp [setCell]

theorem readCell_error (s : ConnectFourState) (r c : Int) (e : Error)
    (h : readCell s r c = Except.error e) : e = Error.OutOfBounds := by
  unfold readCell at h
  split at h
  · cases h
  · injection h with h; exact h.symm

theorem get_winner_error (s : ConnectFourState) (e : Error)
    (h : get_winner s = Except.error e) : e = Error.OutOfBounds := by
  by_cases h0 : s.last_col < 0
  · rw [get_winner_no_last s h0] at h; cases h
  · by_cases hin : inBounds s s.last_row s.last_col
    · rw [get_winner_eq s (by omega) hin] at h; cases h
    · rw [get_winner_out_of_bounds s (by omega) hin] at h
      injection h with h; exact h.symm

theorem has_moves_loop_error (s : ConnectFourState) (l : List Int) (e : Error)
    (h : has_moves_loop s l = Except.error e) : e = Error.OutOfBounds := by
  induction l with
  | nil => unfold has_moves_loop at h; cases h
  | cons col rest ih =>
    unfold has_moves_loop at h
    split at h
    · rename_i e' hr
      injection h with h
      subst h
      exact readCell_error s 0 col _ hr
    · split at h
      · cases h
      · exact ih h

/-- The function `has_moves` fails only through `check_invariant` or an access outside the
board. -/
theorem has_moves_error (inv : ConnectFourState → Bool) (s : ConnectFourState) (e : Error)
    (h : has_moves inv s = Except.error e) :
    e = Error.InvariantViolation ∨ e = Error.OutOfBounds := by
  unfold has_moves at h
  split at h
  · injection h with h; exact Or.inl h.symm
  · split at h
    · rename_i e' hw
      injection h with h
      subst h
      exact Or.inr (get_winner_error s _ hw)
    · split at h
      · cases h
      · exact Or.inr (has_moves_loop_error s _ e h)

/-- The value of `get_result` on a terminal state. -/
theorem get_result_eq (inv : ConnectFourState → Bool) (s : ConnectFourState) (p : Int)
    (w : Marker) (hterm : has_moves inv s = Except.ok false)
    (hw : get_winner s = Except.ok w) :
    get_result inv s p =
      ((if w = Marker.Empty then Except.ok (1 / 2)
      else
        match player_markers p with
        | none => Except.error Error.OutOfBounds
        | some m => if w = m then Except.ok 0 else Except.ok 1) : Except Error ℚ) := by
  have hinv := (has_moves_ok_inv inv s false hterm).1
  unfold get_result
  rw [hterm]
  simp only [hinv, hw]
  rfl

/-- The counting loops of `get_winner` give the same count for every fuel from
`scanFuel s` on. -/
theorem count_loop_stable (s : ConnectFourState) (piece : Marker) (cond : Int → Int → Bool)
    (dr dc r0 c0 : Int)
    (hdr : dr = 0 ∨ dr = 1 ∨ dr = -1) (hdc : dc = 0 ∨ dc = 1 ∨ dc = -1)
    (hne : dr ≠ 0 ∨ dc ≠ 0)
    (hprev : inBounds s (r0 - dr) (c0 - dc))
    (H : ∀ i : Nat,
      (cond (r0 + i * dr) (c0 + i * dc) = true ↔ inBounds s (r0 + i * dr) (c0 + i * dc))) :
    ∃ k, ∀ fuel : Nat, scanFuel s ≤ fuel →
      count_loop s piece cond dr dc fuel r0 c0 0 = Except.ok k := by
  obtain ⟨k, hk, hrun, hstop⟩ := count_loop_total s piece cond dr dc r0 c0 hdr hdc hne hprev H
  have hkf : k < scanFuel s := by
    by_contra hcon
    have hlt : scanFuel s - 1 < k := by unfold scanFuel at hcon ⊢; omega
    have h1 := hrun (scanFuel s - 1) hlt
    rw [cellIs_iff] at h1
    have hb := h1.1
    unfold inBounds at hb hprev
    unfold scanFuel at hb
    rcases hdr with h | h | h <;> rcases hdc with h' | h' | h' <;> subst h <;> subst h' <;>
      simp at hne <;> omega
  refine ⟨k, fun fuel hfuel => ?_⟩
  have := count_loop_run s piece cond dr dc k fuel r0 c0 0 (fun i _ => H i) hrun hstop
    (by omega)
  simpa using this

/-- The search loop of `do_move` gives the same row for every fuel from
`num_rows` on. -/
theorem do_move_loop_stable (s : ConnectFourState) (c : Int)
    (hc : 0 ≤ c ∧ c < s.num_cols) (htop : readCell s 0 c = Except.ok Marker.Empty) :
    ∃ r : Int, 0 ≤ r ∧ r < s.num_rows ∧ s.board r c = Marker.Empty ∧
      (∀ r' : Int, r < r' → r' < s.num_rows → s.board r' c ≠ Marker.Empty) ∧
      ∀ fuel : Nat, s.num_rows.toNat ≤ fuel →
        do_move_loop s c fuel (s.num_rows - 1) = Except.ok r := by
  have htop' := (readCell_ok_iff s 0 c Marker.Empty).1 htop
  have hrows : 0 < s.num_rows := htop'.1.2.1
  obtain ⟨r, _, hr0, hr1, hr2, hr3⟩ :=
    do_move_loop_spec s c htop'.2 hc s.num_rows.toNat (s.num_rows - 1)
      (by omega) (by omega) (by omega)
  refine ⟨r, hr0, by omega, hr2, fun r' h1 h2 => hr3 r' h1 (by omega), ?_⟩
  intro fuel hfuel
  obtain ⟨r2, hr, h20, h21, h22, h23⟩ :=
    do_move_loop_spec s c htop'.2 hc fuel (s.num_rows - 1) (by omega) (by omega) (by omega)
  have : r2 = r := by
    rcases lt_trichotomy r2 r with h | h | h
    · exact absurd hr2 (h23 r h hr1)
    · exact h
    · exact absurd h22 (hr3 r2 h h21)
  rw [hr, this]

/-- The draw loop applies `do_move` to the first drawn column whose top cell
is `Empty`; the draws before it are skipped. -/
theorem do_random_move_loop_first (inv : ConnectFourState → Bool) (s : ConnectFourState)
    (draws : List Int) (hin : ∀ d ∈ draws, inBounds s 0 d)
    (hex : ∃ c ∈ draws, s.board 0 c = Marker.Empty) :
    ∃ (pre : List Int) (c : Int) (post : List Int),
      draws = pre ++ c :: post ∧
      (∀ d ∈ pre, s.board 0 d ≠ Marker.Empty) ∧
      s.board 0 c = Marker.Empty ∧
      do_random_move_loop inv s draws = do_move inv s c ∧
      do_random_move_loop inv s draws = do_random_move_loop inv s (c :: post) := by
  induction draws with
  | nil => obtain ⟨c, hc, _⟩ := hex; cases hc
  | cons d rest ih =>
    have hd := hin d (List.mem_cons_self _ _)
    by_cases hE : s.board 0 d = Marker.Empty
    · refine ⟨[], d, rest, rfl, (fun _ h => by cases h), hE, ?_, rfl⟩
      unfold do_random_move_loop
      simp [readCell_of_inBounds hd, hE]
    · have hex' : ∃ c ∈ rest, s.board 0 c = Marker.Empty := by
        obtain ⟨c, hc, hcE⟩ := hex
        rcases List.mem_cons.1 hc with h | h
        · rw [h] at hcE; exact absurd hcE hE
        · exact ⟨c, h, hcE⟩
      obtain ⟨pre, c, post, hsplit, hpre, hcE, hrun, hskip⟩ :=
        ih (fun x hx => hin x (List.mem_cons_of_mem _ hx)) hex'
      have hstep : do_random_move_loop inv s (d :: rest) = do_random_move_loop inv s rest := by
        conv_lhs => unfold do_random_move_loop
        simp [readCell_of_inBounds hd, hE]
      refine ⟨d :: pre, c, post, by rw [hsplit]; rfl, ?_, hcE, by rw [hstep, hrun],
        by rw [hstep, hskip]⟩
      intro x hx
      rcases List.mem_cons.1 hx with h | h
      · rw [h]; exact hE
      · exact hpre x h

/-- The search loop of `do_move`, started on a row of the board in a column
whose top cell is `Empty`, never reads outside the board, whatever the fuel. -/
theorem do_move_loop_in_bounds (s : ConnectFourState) (c : Int)
    (hc : 0 ≤ c ∧ c < s.num_cols) (htop : s.board 0 c = Marker.Empty) :
    ∀ (fuel : Nat) (row : Int), 0 ≤ row → row < s.num_rows →
      do_move_loop s c fuel row ≠ Except.error Error.OutOfBounds := by
  intro fuel
  induction fuel with
  | zero =>
    intro row _ _ h
    unfold do_move_loop at h
    cases h
  | succ fuel ih =>
    intro row h0 h1
    have hin : inBounds s row c := ⟨h0, h1, hc.1, hc.2⟩
    unfold do_move_loop
    rw [readCell_of_inBounds hin]
    by_cases hE : s.board row c = Marker.Empty
    · simp [hE]
    · have hne : row ≠ 0 := by
        intro h; rw [h] at hE; exact hE htop
      simp only [ne_eq, hE, not_false_eq_true, if_true]
      exact ih (row - 1) (by omega) (by omega)

/-- The column loops of `has_moves` and `get_moves` agree on every list of
columns in range. -/
theorem has_get_moves_loops (s : ConnectFourState) (l : List Int)
    (hl : ∀ c ∈ l, 0 ≤ c ∧ c < s.num_cols) :
    (has_moves_loop s l = Except.ok true ↔
      ∃ moves, get_moves_loop s l [] = Except.ok moves ∧ moves ≠ []) ∧
    (has_moves_loop s l = Except.ok false ↔ get_moves_loop s l [] = Except.ok []) := by
  by_cases hrows : 0 < s.num_rows
  · have hin : ∀ c ∈ l, inBounds s 0 c := fun c hc =>
      ⟨le_refl _, hrows, (hl c hc).1, (hl c hc).2⟩
    rw [has_moves_loop_true_iff s l hl, has_moves_loop_false_iff, get_moves_loop_eq s l hin]
    simp only [List.nil_append]
    constructor
    · constructor
      · rintro ⟨c, hc, hcE⟩
        refine ⟨_, rfl, ?_⟩
        intro hnil
        have hmem : c ∈ l.filter (fun c => decide (s.board 0 c = Marker.Empty)) := by
          rw [List.mem_filter]
          exact ⟨hc, by simp [((readCell_ok_iff s 0 c _).1 hcE).2]⟩
        rw [hnil] at hmem
        cases hmem
      · rintro ⟨moves, hmv, hne⟩
        injection hmv with hmv
        subst hmv
        obtain ⟨c, hc⟩ := List.exists_mem_of_ne_nil _ hne
        rw [List.mem_filter] at hc
        exact ⟨c, hc.1, by rw [readCell_of_inBounds (hin c hc.1)]; simpa using hc.2⟩
    · constructor
      · intro h
        congr 1
        rw [List.filter_eq_nil_iff]
        intro c hc
        obtain ⟨m, hm, hr⟩ := h c hc
        have := ((readCell_ok_iff s 0 c m).1 hr).2
        simp [this, hm]
      · intro h c hc
        injection h with h
        rw [List.filter_eq_nil_iff] at h
        exact ⟨s.board 0 c, by simpa using h c hc, readCell_of_inBounds (hin c hc)⟩
  · cases l with
    | nil => simp [has_moves_loop, get_moves_loop]
    | cons d rest =>
      have hd : ¬ inBounds s 0 d := fun h => hrows h.2.1
      unfold has_moves_loop get_moves_loop
      rw [readCell_of_not_inBounds hd]
      simp

/-! ## The claims -/

/-- C1 (as amended).  On a terminal state whose winner is player `w`,
`get_result(p)` is `0.0` when `p = w` and `1.0` when `p` is the opponent of
`w`, for `p` in {1, 2}.  In particular, after the moves 3,0,3,0,3,0,3 on the
empty 6x7 board every move was accepted, `has_moves()` is false,
`get_result(1) = 0.0` and `get_result(2) = 1.0`. -/
theorem C1_get_result_winner :
    (∀ (inv : ConnectFourState → Bool) (s : ConnectFourState) (w p : Int) (m : Marker),
      (w = 1 ∨ w = 2) → (p = 1 ∨ p = 2) → player_markers w = some m →
      has_moves inv s = Except.ok false → get_winner s = Except.ok m →
      get_result inv s p = Except.ok (if p = w then 0 else 1)) ∧
    ((play check_invariant (init 6 7) [3, 0, 3, 0, 3, 0, 3]).1 = Except.ok () ∧
      has_moves check_invariant fourInColumnThree = Except.ok false ∧
      get_result check_invariant fourInColumnThree 1 = Except.ok 0 ∧
      get_result check_invariant fourInColumnThree 2 = Except.ok 1) := by
  refine ⟨?_, rfl, rfl, rfl, rfl⟩
  intro inv s w p m hw hp hm hterm hwin
  have hinv := (has_moves_ok_inv inv s false hterm).1
  unfold get_result
  rw [hterm]
  simp only [hinv, hwin]
  rcases hw with rfl | rfl <;> rcases hp with rfl | rfl <;>
    simp [player_markers] at hm ⊢ <;> subst hm <;> simp

/-- C1, an instance of the amended statement: in the state after
3,0,3,0,3,0,3 the winner is player 1, so `get_result(2)` is `1.0`. -/
theorem C1_get_result_winner_witness :
    has_moves check_invariant fourInColumnThree = Except.ok false ∧
    get_winner fourInColumnThree = Except.ok Marker.PlayerOne ∧
    get_result check_invariant fourInColumnThree 2 = Except.ok (if (2 : Int) = 1 then 0 else 1) :=
  ⟨rfl, rfl, C1_get_result_winner.1 check_invariant fourInColumnThree 1 2 Marker.PlayerOne
    (Or.inl rfl) (Or.inr rfl) rfl rfl rfl⟩

/-- C1 as stated fails: after 3,0,3,0,3,0,3 the state is terminal and the
winner is player 1, yet `get_result(1)` is not `1.0` and `get_result(2)` is not
`0.0`. -/
theorem C1_counterexample :
    has_moves check_invariant fourInColumnThree = Except.ok false ∧
    get_winner fourInColumnThree = Except.ok Marker.PlayerOne ∧
    player_markers 1 = some Marker.PlayerOne ∧
    get_result check_invariant fourInColumnThree 1 ≠ Except.ok 1 ∧
    get_result check_invariant fourInColumnThree 2 ≠ Except.ok 0 := by
  refine ⟨rfl, rfl, rfl, ?_, ?_⟩
  · have h : get_result check_invariant fourInColumnThree 1 = Except.ok 0 := rfl
    rw [h]
    intro h'
    injection h' with h'
    exact absurd h' (by norm_num)
  · have h : get_result check_invariant fourInColumnThree 2 = Except.ok 1 := rfl
    rw [h]
    intro h'
    injection h' with h'
    exact absurd h' (by norm_num)

/-- C2.  In every state reachable from the empty state by legal `do_move`
calls made while `has_moves()` was true, `get_winner()` agrees with the naive
full-board scan: it returns the marker of player `p` exactly when the scan
finds four consecutive cells in a row, column or diagonal holding that marker,
and it returns `Empty` exactly when the scan finds no such line for either
player. -/
theorem C2_get_winner_agrees_with_scan (inv : ConnectFourState → Bool)
    (s : ConnectFourState) (h : Reachable inv s) :
    (∀ (p : Int) (m : Marker), (p = 1 ∨ p = 2) → player_markers p = some m →
      ((get_winner s = Except.ok m ↔ naive_scan s m = true) ∧
       (get_winner s = Except.ok m ↔ FourInARow s m))) ∧
    (get_winner s = Except.ok Marker.Empty ↔
      (naive_scan s Marker.PlayerOne = false ∧ naive_scan s Marker.PlayerTwo = false)) ∧
    (get_winner s = Except.ok Marker.Empty ↔
      (¬ FourInARow s Marker.PlayerOne ∧ ¬ FourInARow s Marker.PlayerTwo)) := by
  have hs := reachable_scanInvariant inv s h
  refine ⟨?_, ?_, get_winner_empty_iff s hs⟩
  · intro p m hp hm
    have hne : m ≠ Marker.Empty := by
      rcases player_markers_some p m hm with h' | h' | h'
      · omega
      · rw [h'.2]; decide
      · rw [h'.2]; decide
    have := get_winner_iff_line s hs m hne
    exact ⟨by rw [naive_scan_iff]; exact this, this⟩
  · rw [get_winner_empty_iff s hs, ← naive_scan_iff, ← naive_scan_iff]
    simp

/-- C2 at the state after 3,0,3,0,3,0,3: the state is reachable, the naive
scan finds a line of player 1, and `get_winner()` returns player 1. -/
theorem C2_get_winner_agrees_with_scan_witness :
    Reachable check_invariant fourInColumnThree ∧
    naive_scan fourInColumnThree Marker.PlayerOne = true ∧
    get_winner fourInColumnThree = Except.ok Marker.PlayerOne :=
  ⟨reachable_play check_invariant [3, 0, 3, 0, 3, 0, 3] (init 6 7)
      (Reachable.empty 6 7 (by decide) (by decide)) rfl,
    rfl,
    ((C2_get_winner_agrees_with_scan check_invariant fourInColumnThree
      (reachable_play check_invariant [3, 0, 3, 0, 3, 0, 3] (init 6 7)
        (Reachable.empty 6 7 (by decide) (by decide)) rfl)).1 1 Marker.PlayerOne
      (Or.inl rfl) rfl).1.2 rfl⟩

/-- C3.  For a state whose `last_move` lies inside the board and holds a
player's marker (`do_move`, the only writer of `last_row` and `last_col`, puts
a player's marker there, so every state produced by moves from the empty
board is of this kind): `get_winner()` returns the marker stored at
`last_move` if and only if, in at least one of the four orientations, the run
of that marker through `last_move` has length at least 4; otherwise it returns
`Empty`.  For any marker at an in-board `last_move` the result is that marker
when such a run exists and `Empty` when it does not.  When `last_move` is none
(`last_col < 0`) the result is `Empty` whatever the board holds. -/
theorem C3_get_winner_last_move (s : ConnectFourState) :
    (inBounds s s.last_row s.last_col →
      s.board s.last_row s.last_col ≠ Marker.Empty →
      (get_winner s = Except.ok (s.board s.last_row s.last_col) ↔
        WinAtLast s (s.board s.last_row s.last_col)) ∧
      (¬ WinAtLast s (s.board s.last_row s.last_col) →
        get_winner s = Except.ok Marker.Empty)) ∧
    (inBounds s s.last_row s.last_col →
      get_winner s = Except.ok
        (if WinAtLast s (s.board s.last_row s.last_col) then s.board s.last_row s.last_col
         else Marker.Empty)) ∧
    (s.last_col < 0 → get_winner s = Except.ok Marker.Empty) ∧
    (∀ (inv : ConnectFourState → Bool) (nrows ncols : Int) (n : Nat),
      MovesFrom inv (init nrows ncols) n s → 1 ≤ n →
      inBounds s s.last_row s.last_col ∧ s.board s.last_row s.last_col ≠ Marker.Empty) := by
  refine ⟨?_, ?_, get_winner_no_last s, ?_⟩
  · intro hlast hne
    have heq := get_winner_eq s hlast.2.2.1 hlast
    rw [heq]
    by_cases hW : WinAtLast s (s.board s.last_row s.last_col)
    · rw [if_pos hW]
      exact ⟨⟨fun _ => hW, fun _ => rfl⟩, fun h => absurd hW h⟩
    · rw [if_neg hW]
      refine ⟨⟨?_, fun h => absurd h hW⟩, fun _ => rfl⟩
      intro h
      injection h with h
      exact absurd h.symm hne
  · intro hlast
    exact get_winner_eq s hlast.2.2.1 hlast
  · intro inv nrows ncols n h hn
    obtain ⟨h1, h2, _, _⟩ := movesFrom_last inv nrows ncols s n h hn
    exact ⟨h1, h2⟩

/-- C3 on the two boards of the specification's scenario: with pieces at
(5,0), (4,1), (3,2), (2,3) and last move (2,3) the diagonal run is found and
player 1 wins; with a run of three only there is no winner. -/
theorem C3_get_winner_last_move_witness :
    (inBounds diagonalFour diagonalFour.last_row diagonalFour.last_col ∧
      diagonalFour.board diagonalFour.last_row diagonalFour.last_col ≠ Marker.Empty ∧
      WinAtLast diagonalFour Marker.PlayerOne ∧
      get_winner diagonalFour = Except.ok Marker.PlayerOne) ∧
    (inBounds threeInRow threeInRow.last_row threeInRow.last_col ∧
      threeInRow.board threeInRow.last_row threeInRow.last_col ≠ Marker.Empty ∧
      ¬ WinAtLast threeInRow Marker.PlayerOne ∧
      get_winner threeInRow = Except.ok Marker.Empty) :=
  ⟨⟨by decide, by decide, by decide,
      ((C3_get_winner_last_move diagonalFour).1 (by decide) (by decide)).1.2 (by decide)⟩,
    ⟨by decide, by decide, by decide,
      ((C3_get_winner_last_move threeInRow).1 (by decide) (by decide)).2 (by decide)⟩⟩

/-- C4.  For a state that passes `check_invariant` and whose `player_to_move`
has a marker `m`, and a column `c` in range whose top cell is `Empty`:
`do_move(c)` succeeds, writes `m` into the lowest `Empty` cell of column `c`
(the largest row index `r` with `board[r][c]` `Empty`), sets `last_move` to
`(r, c)`, and turns `player_to_move` into `3 - player_to_move` (1 becomes 2,
2 becomes 1). -/
theorem C4_do_move_effect (inv : ConnectFourState → Bool) (s : ConnectFourState)
    (c : Int) (m : Marker) (hinv : inv s = true) (hc0 : 0 ≤ c) (hc1 : c < s.num_cols)
    (htop : readCell s 0 c = Except.ok Marker.Empty)
    (hm : player_markers s.player_to_move = some m) :
    ∃ (r : Int) (s' : ConnectFourState),
      do_move inv s c = (Except.ok (), s') ∧
      0 ≤ r ∧ r < s.num_rows ∧ s.board r c = Marker.Empty ∧
      (∀ r' : Int, r < r' → r' < s.num_rows → s.board r' c ≠ Marker.Empty) ∧
      s'.board r c = m ∧
      s'.last_row = r ∧ s'.last_col = c ∧
      s'.player_to_move = 3 - s.player_to_move ∧
      (s.player_to_move = 1 → s'.player_to_move = 2) ∧
      (s.player_to_move = 2 → s'.player_to_move = 1) := by
  obtain ⟨r, hr0, hr1, hE, hlow, hdo⟩ := do_move_success inv s c m hinv ⟨hc0, hc1⟩ htop hm
  refine ⟨r, _, hdo, hr0, hr1, hE, hlow, by simp [setCell], rfl, rfl, rfl, ?_, ?_⟩
  · intro h; show 3 - s.player_to_move = 2; omega
  · intro h; show 3 - s.player_to_move = 1; omega

/-- C4 on the empty 6x7 board and column 3: the hypotheses hold and the move
lands in some row of column 3. -/
theorem C4_do_move_effect_witness :
    check_invariant (init 6 7) = true ∧ (0 : Int) ≤ 3 ∧ (3 : Int) < (init 6 7).num_cols ∧
    readCell (init 6 7) 0 3 = Except.ok Marker.Empty ∧
    player_markers (init 6 7).player_to_move = some Marker.PlayerOne ∧
    ∃ (r : Int) (s' : ConnectFourState),
      do_move check_invariant (init 6 7) 3 = (Except.ok (), s') ∧
      0 ≤ r ∧ r < (init 6 7).num_rows ∧ (init 6 7).board r 3 = Marker.Empty ∧
      (∀ r' : Int, r < r' → r' < (init 6 7).num_rows →
        (init 6 7).board r' 3 ≠ Marker.Empty) ∧
      s'.board r 3 = Marker.PlayerOne ∧
      s'.last_row = r ∧ s'.last_col = 3 ∧
      s'.player_to_move = 3 - (init 6 7).player_to_move ∧
      ((init 6 7).player_to_move = 1 → s'.player_to_move = 2) ∧
      ((init 6 7).player_to_move = 2 → s'.player_to_move = 1) :=
  ⟨rfl, by decide, by decide, rfl, rfl,
    C4_do_move_effect check_invariant (init 6 7) 3 Marker.PlayerOne rfl (by decide)
      (by decide) rfl rfl⟩

/-- C5.  `do_move(c)` fails with `IllegalMove` whenever `c < 0`,
`c >= num_cols`, or the top cell of column `c` is not `Empty`, and then the
state (board, last move, player to move) is unchanged.  For a column in range
with an `Empty` top cell, on a state that passes `check_invariant` and whose
`player_to_move` is 1 or 2, it does not fail. -/
theorem C5_do_move_illegal_move (inv : ConnectFourState → Bool) (s : ConnectFourState)
    (c : Int) :
    ((c < 0 ∨ s.num_cols ≤ c ∨ ∃ m, m ≠ Marker.Empty ∧ readCell s 0 c = Except.ok m) →
      (do_move inv s c).1 = Except.error Error.IllegalMove ∧ (do_move inv s c).2 = s) ∧
    (inv s = true → (s.player_to_move = 1 ∨ s.player_to_move = 2) →
      0 ≤ c → c < s.num_cols → readCell s 0 c = Except.ok Marker.Empty →
      (do_move inv s c).1 = Except.ok ()) := by
  constructor
  · intro h
    rw [do_move_illegal inv s c h]
    exact ⟨rfl, rfl⟩
  · intro hinv hp hc0 hc1 htop
    have hm : ∃ m, player_markers s.player_to_move = some m := by
      rcases hp with h | h <;> rw [h] <;> exact ⟨_, rfl⟩
    obtain ⟨m, hm⟩ := hm
    obtain ⟨r, _, _, _, _, hdo⟩ := do_move_success inv s c m hinv ⟨hc0, hc1⟩ htop hm
    rw [hdo]

/-- C5 on the 6x7 board whose column 0 holds six pieces: `do_move(0)` fails
with `IllegalMove` and leaves the state as it was, `do_move(7)` and
`do_move(-1)` fail likewise, and `do_move(1)` succeeds. -/
theorem C5_do_move_illegal_move_witness :
    (∀ r : Int, 0 ≤ r → r < 6 → fullColumnZero.board r 0 ≠ Marker.Empty) ∧
    (do_move check_invariant fullColumnZero 0).1 = Except.error Error.IllegalMove ∧
    (do_move check_invariant fullColumnZero 0).2 = fullColumnZero ∧
    (do_move check_invariant fullColumnZero 7).1 = Except.error Error.IllegalMove ∧
    (do_move check_invariant fullColumnZero (-1)).1 = Except.error Error.IllegalMove ∧
    (do_move check_invariant fullColumnZero 1).1 = Except.ok () := by
  refine ⟨?_, ?_, ?_, ?_, ?_, ?_⟩
  · intro r h0 h1
    have : r = 0 ∨ r = 1 ∨ r = 2 ∨ r = 3 ∨ r = 4 ∨ r = 5 := by omega
    rcases this with h | h | h | h | h | h <;> subst h <;> decide
  · exact ((C5_do_move_illegal_move check_invariant fullColumnZero 0).1
      (Or.inr (Or.inr ⟨Marker.PlayerTwo, by decide, rfl⟩))).1
  · exact ((C5_do_move_illegal_move check_invariant fullColumnZero 0).1
      (Or.inr (Or.inr ⟨Marker.PlayerTwo, by decide, rfl⟩))).2
  · exact ((C5_do_move_illegal_move check_invariant fullColumnZero 7).1
      (Or.inr (Or.inl (by decide)))).1
  · exact ((C5_do_move_illegal_move check_invariant fullColumnZero (-1)).1
      (Or.inl (by decide))).1
  · exact (C5_do_move_illegal_move check_invariant fullColumnZero 1).2 rfl
      (Or.inl rfl) (by decide) (by decide) rfl

/-- C6 (as amended).  `do_move` does not test whether the game is over.  On
a state where `has_moves()` is false and no player has won (the board is
full), `do_move(c)` fails with `IllegalMove` for every `c` and leaves the
state unchanged.  On a state where `has_moves()` is false because a player
has won, `do_move(c)` still succeeds for every column in range whose top cell
is `Empty` (with `player_to_move` 1 or 2). -/
theorem C6_do_move_on_terminal (inv : ConnectFourState → Bool) (s : ConnectFourState)
    (hterm : has_moves inv s = Except.ok false) :
    (get_winner s = Except.ok Marker.Empty →
      ∀ c : Int, (do_move inv s c).1 = Except.error Error.IllegalMove ∧
        (do_move inv s c).2 = s) ∧
    (∀ w : Marker, w ≠ Marker.Empty → get_winner s = Except.ok w →
      ∀ c : Int, 0 ≤ c → c < s.num_cols → readCell s 0 c = Except.ok Marker.Empty →
        (s.player_to_move = 1 ∨ s.player_to_move = 2) →
        ∃ s', do_move inv s c = (Except.ok (), s')) := by
  have hinv := (has_moves_ok_inv inv s false hterm).1
  constructor
  · intro hw c
    rw [has_moves_eq inv s Marker.Empty hinv hw] at hterm
    simp only [ne_eq, not_true_eq_false, if_false] at hterm
    rw [has_moves_loop_false_iff] at hterm
    have hill : c < 0 ∨ s.num_cols ≤ c ∨
        ∃ m, m ≠ Marker.Empty ∧ readCell s 0 c = Except.ok m := by
      by_cases hc : 0 ≤ c ∧ c < s.num_cols
      · exact Or.inr (Or.inr (hterm c ((mem_columns s c).2 hc)))
      · by_cases h0 : c < 0
        · exact Or.inl h0
        · exact Or.inr (Or.inl (by omega))
    rw [do_move_illegal inv s c hill]
    exact ⟨rfl, rfl⟩
  · intro w _ _ c hc0 hc1 htop hp
    have hm : ∃ m, player_markers s.player_to_move = some m := by
      rcases hp with h | h <;> rw [h] <;> exact ⟨_, rfl⟩
    obtain ⟨m, hm⟩ := hm
    obtain ⟨r, _, _, _, _, hdo⟩ := do_move_success inv s c m hinv ⟨hc0, hc1⟩ htop hm
    exact ⟨_, hdo⟩

/-- C6 on the full drawn board: `has_moves()` is false, nobody has won, and
`do_move(3)` fails with `IllegalMove`. -/
theorem C6_do_move_on_terminal_witness :
    has_moves check_invariant drawnBoard = Except.ok false ∧
    get_winner drawnBoard = Except.ok Marker.Empty ∧
    (do_move check_invariant drawnBoard 3).1 = Except.error Error.IllegalMove ∧
    (do_move check_invariant drawnBoard 3).2 = drawnBoard :=
  ⟨rfl, rfl, ((C6_do_move_on_terminal check_invariant drawnBoard rfl).1 rfl 3).1,
    ((C6_do_move_on_terminal check_invariant drawnBoard rfl).1 rfl 3).2⟩

/-- C6 as stated fails: after 3,0,3,0,3,0,3 player 1 has won and `has_moves()`
is false, yet `do_move(1)` is accepted and yields a successor state with a new
piece at (5,1). -/
theorem C6_counterexample :
    has_moves check_invariant fourInColumnThree = Except.ok false ∧
    (do_move check_invariant fourInColumnThree 1).1 = Except.ok () ∧
    fourInColumnThree.board 5 1 = Marker.Empty ∧
    (do_move check_invariant fourInColumnThree 1).2.board 5 1 = Marker.PlayerTwo :=
  ⟨rfl, rfl, rfl, rfl⟩

/-- C7.  On a state that passes `check_invariant`, `has_moves()` returns true
if and only if `get_winner()` returns `Empty` and some column `c` in
`[0, num_cols)` has an `Empty` top cell; it returns false if and only if
`get_winner()` reports a player, or reports `Empty` while every column in range
has an occupied top cell. -/
theorem C7_has_moves_iff (inv : ConnectFourState → Bool) (s : ConnectFourState)
    (hinv : inv s = true) :
    (has_moves inv s = Except.ok true ↔
      (get_winner s = Except.ok Marker.Empty ∧
        ∃ c : Int, 0 ≤ c ∧ c < s.num_cols ∧ readCell s 0 c = Except.ok Marker.Empty)) ∧
    (has_moves inv s = Except.ok false ↔
      ((∃ w, w ≠ Marker.Empty ∧ get_winner s = Except.ok w) ∨
        (get_winner s = Except.ok Marker.Empty ∧
          ∀ c : Int, 0 ≤ c → c < s.num_cols →
            ∃ m, m ≠ Marker.Empty ∧ readCell s 0 c = Except.ok m))) := by
  have hcols : ∀ c ∈ columns s, 0 ≤ c ∧ c < s.num_cols := fun c hc => (mem_columns s c).1 hc
  cases hw : get_winner s with
  | error e =>
    have hm : has_moves inv s = Except.error e := by
      unfold has_moves
      simp [hinv, hw]
    rw [hm]
    constructor
    · constructor
      · intro h; cases h
      · rintro ⟨h, _⟩; cases h
    · constructor
      · intro h; cases h
      · rintro (⟨w, _, h⟩ | ⟨h, _⟩) <;> cases h
  | ok w =>
    rw [has_moves_eq inv s w hinv hw]
    by_cases hE : w = Marker.Empty
    · subst hE
      simp only [ne_eq, not_true_eq_false, if_false]
      rw [has_moves_loop_true_iff s (columns s) hcols, has_moves_loop_false_iff]
      constructor
      · constructor
        · rintro ⟨c, hc, h⟩
          exact ⟨trivial, c, (hcols c hc).1, (hcols c hc).2, h⟩
        · rintro ⟨_, c, h0, h1, h⟩
          exact ⟨c, (mem_columns s c).2 ⟨h0, h1⟩, h⟩
      · constructor
        · intro h
          exact Or.inr ⟨trivial, fun c h0 h1 => h c ((mem_columns s c).2 ⟨h0, h1⟩)⟩
        · rintro (⟨w, hw', h⟩ | ⟨_, h⟩)
          · injection h with h
            exact absurd h.symm hw'
          · exact fun c hc => h c (hcols c hc).1 (hcols c hc).2
    · rw [if_pos hE]
      constructor
      · constructor
        · intro h; cases h
        · rintro ⟨h, _⟩
          injection h with h
          exact absurd h hE
      · constructor
        · intro _
          exact Or.inl ⟨w, hE, rfl⟩
        · intro _; rfl

/-- C7 on the empty 6x7 board: the check passes, nobody has won, column 3 is
free, and `has_moves()` returns true. -/
theorem C7_has_moves_iff_witness :
    check_invariant (init 6 7) = true ∧
    get_winner (init 6 7) = Except.ok Marker.Empty ∧
    readCell (init 6 7) 0 3 = Except.ok Marker.Empty ∧
    has_moves check_invariant (init 6 7) = Except.ok true :=
  ⟨rfl, rfl, rfl, (C7_has_moves_iff check_invariant (init 6 7) rfl).1.2
    ⟨rfl, 3, by decide, by decide, rfl⟩⟩

/-- C8.  On a state that passes `check_invariant`, whose last move is none or
on the board and whose board has a top row: `get_moves()` returns the empty
sequence if `get_winner()` reports a winner or every column's top cell is
occupied; otherwise it returns, strictly ascending and without duplicates,
exactly the columns `c` of `[0, num_cols)` whose top cell is `Empty`. -/
theorem C8_get_moves (inv : ConnectFourState → Bool) (s : ConnectFourState)
    (hinv : inv s = true)
    (hlast : s.last_col < 0 ∨ inBounds s s.last_row s.last_col)
    (hrows : 0 < s.num_rows) :
    ∃ (w : Marker) (moves : List Int),
      get_winner s = Except.ok w ∧ get_moves inv s = Except.ok moves ∧
      ((w ≠ Marker.Empty ∨
          ∀ c : Int, 0 ≤ c → c < s.num_cols → s.board 0 c ≠ Marker.Empty) →
        moves = []) ∧
      (¬ (w ≠ Marker.Empty ∨
          ∀ c : Int, 0 ≤ c → c < s.num_cols → s.board 0 c ≠ Marker.Empty) →
        (moves.Pairwise (· < ·) ∧ moves.Nodup ∧
          ∀ c : Int, c ∈ moves ↔
            (0 ≤ c ∧ c < s.num_cols ∧ readCell s 0 c = Except.ok Marker.Empty))) := by
  obtain ⟨w, hw⟩ := (get_winner_ok_iff s).2 hlast
  refine ⟨w, _, hw, get_moves_eq inv s w hinv hw hrows, ?_, ?_⟩
  · rintro (h | h)
    · rw [if_pos h]
    · by_cases hE : w ≠ Marker.Empty
      · rw [if_pos hE]
      · rw [if_neg hE, List.filter_eq_nil_iff]
        intro c hc
        have := (mem_columns s c).1 hc
        simpa using h c this.1 this.2
  · intro h
    push_neg at h
    have hE : ¬ w ≠ Marker.Empty := by simpa using h.1
    rw [if_neg hE]
    have hpw : ((columns s).filter
        (fun c => decide (s.board 0 c = Marker.Empty))).Pairwise (· < ·) :=
      (columns_pairwise s).sublist (List.filter_sublist _)
    refine ⟨hpw, hpw.imp (fun h => ne_of_lt h), ?_⟩
    intro c
    rw [List.mem_filter, mem_columns, readCell_ok_iff]
    unfold inBounds
    simp only [decide_eq_true_eq]
    constructor
    · rintro ⟨⟨h0, h1⟩, h2⟩
      exact ⟨h0, h1, ⟨le_refl _, hrows, h0, h1⟩, h2⟩
    · rintro ⟨h0, h1, _, h2⟩
      exact ⟨⟨h0, h1⟩, h2⟩

/-- C8 on the 6x7 board whose column 0 is full: `get_moves()` is the list
1, 2, 3, 4, 5, 6. -/
theorem C8_get_moves_witness :
    check_invariant fullColumnZero = true ∧
    inBounds fullColumnZero fullColumnZero.last_row fullColumnZero.last_col ∧
    0 < fullColumnZero.num_rows ∧
    get_moves check_invariant fullColumnZero = Except.ok [1, 2, 3, 4, 5, 6] ∧
    ∃ (w : Marker) (moves : List Int),
      get_winner fullColumnZero = Except.ok w ∧
      get_moves check_invariant fullColumnZero = Except.ok moves ∧
      ((w ≠ Marker.Empty ∨ ∀ c : Int, 0 ≤ c → c < fullColumnZero.num_cols →
          fullColumnZero.board 0 c ≠ Marker.Empty) → moves = []) ∧
      (¬ (w ≠ Marker.Empty ∨ ∀ c : Int, 0 ≤ c → c < fullColumnZero.num_cols →
          fullColumnZero.board 0 c ≠ Marker.Empty) →
        (moves.Pairwise (· < ·) ∧ moves.Nodup ∧
          ∀ c : Int, c ∈ moves ↔
            (0 ≤ c ∧ c < fullColumnZero.num_cols ∧
              readCell fullColumnZero 0 c = Except.ok Marker.Empty))) :=
  ⟨rfl, by decide, by decide, rfl,
    C8_get_moves check_invariant fullColumnZero rfl (Or.inr (by decide)) (by decide)⟩

/-- C9 (as amended).  For every reachable state that passes
`check_invariant`, `get_moves()` is a strictly ascending list of columns of
`[0, num_cols)`; when no player has won it is exactly the set of columns whose
top cell is `Empty`, and when a player has just won it is empty. -/
theorem C9_get_moves_reachable (inv : ConnectFourState → Bool) (s : ConnectFourState)
    (h : Reachable inv s) (hinv : inv s = true) :
    ∃ (w : Marker) (moves : List Int),
      get_winner s = Except.ok w ∧ get_moves inv s = Except.ok moves ∧
      (∀ c ∈ moves, 0 ≤ c ∧ c < s.num_cols) ∧
      moves.Pairwise (· < ·) ∧
      (w = Marker.Empty → ∀ c : Int, c ∈ moves ↔
        (0 ≤ c ∧ c < s.num_cols ∧ readCell s 0 c = Except.ok Marker.Empty)) ∧
      (w ≠ Marker.Empty → moves = []) := by
  have hrows := (reachable_dims inv s h).1
  obtain ⟨w, hw⟩ := (get_winner_ok_iff s).2 (reachable_last inv s h)
  refine ⟨w, _, hw, get_moves_eq inv s w hinv hw hrows, ?_, ?_, ?_, ?_⟩
  · intro c hc
    by_cases hE : w ≠ Marker.Empty
    · rw [if_pos hE] at hc; cases hc
    · rw [if_neg hE] at hc
      exact (mem_columns s c).1 (List.mem_filter.1 hc).1
  · by_cases hE : w ≠ Marker.Empty
    · rw [if_pos hE]; exact List.Pairwise.nil
    · rw [if_neg hE]
      exact (columns_pairwise s).sublist (List.filter_sublist _)
  · intro hE c
    have hE' : ¬ w ≠ Marker.Empty := by simpa using hE
    rw [if_neg hE', List.mem_filter, mem_columns, readCell_ok_iff]
    unfold inBounds
    simp only [decide_eq_true_eq]
    constructor
    · rintro ⟨⟨h0, h1⟩, h2⟩
      exact ⟨h0, h1, ⟨le_refl _, hrows, h0, h1⟩, h2⟩
    · rintro ⟨h0, h1, _, h2⟩
      exact ⟨⟨h0, h1⟩, h2⟩
  · intro hE
    rw [if_pos hE]

/-- C9 (amended) on the state after six moves into column 0: it is reachable
and passes the check, and `get_moves()` lists the columns 1 to 6. -/
theorem C9_get_moves_reachable_witness :
    Reachable check_invariant fullColumnZero ∧
    check_invariant fullColumnZero = true ∧
    ∃ (w : Marker) (moves : List Int),
      get_winner fullColumnZero = Except.ok w ∧
      get_moves check_invariant fullColumnZero = Except.ok moves ∧
      (∀ c ∈ moves, 0 ≤ c ∧ c < fullColumnZero.num_cols) ∧
      moves.Pairwise (· < ·) ∧
      (w = Marker.Empty → ∀ c : Int, c ∈ moves ↔
        (0 ≤ c ∧ c < fullColumnZero.num_cols ∧
          readCell fullColumnZero 0 c = Except.ok Marker.Empty)) ∧
      (w ≠ Marker.Empty → moves = []) :=
  ⟨reachable_play check_invariant [0, 0, 0, 0, 0, 0] (init 6 7)
      (Reachable.empty 6 7 (by decide) (by decide)) rfl,
    rfl,
    C9_get_moves_reachable check_invariant fullColumnZero
      (reachable_play check_invariant [0, 0, 0, 0, 0, 0] (init 6 7)
        (Reachable.empty 6 7 (by decide) (by decide)) rfl) rfl⟩

/-- C9 as stated fails: the state after 3,0,3,0,3,0,3 is reachable and player
1 has just won; `get_moves()` is empty although column 1 is in range and its
top cell is free. -/
theorem C9_counterexample :
    Reachable check_invariant fourInColumnThree ∧
    get_moves check_invariant fourInColumnThree = Except.ok [] ∧
    ((0 : Int) ≤ 1 ∧ (1 : Int) < fourInColumnThree.num_cols ∧
      readCell fourInColumnThree 0 1 = Except.ok Marker.Empty) :=
  ⟨reachable_play check_invariant [3, 0, 3, 0, 3, 0, 3] (init 6 7)
      (Reachable.empty 6 7 (by decide) (by decide)) rfl,
    rfl, by decide, by decide, rfl⟩

/-- C10.  Draw detection.  On a state that passes `check_invariant`, whose
last move is none or on the board, whose board is full (every column of
`[0, num_cols)` has an occupied top cell) and holds no four consecutive equal
player markers in any row, column or diagonal, `get_result(1)` and
`get_result(2)` are both `0.5`. -/
theorem C10_draw (inv : ConnectFourState → Bool) (s : ConnectFourState)
    (hinv : inv s = true)
    (hlast : s.last_col < 0 ∨ inBounds s s.last_row s.last_col)
    (hfull : ∀ c : Int, 0 ≤ c → c < s.num_cols →
      ∃ m, m ≠ Marker.Empty ∧ readCell s 0 c = Except.ok m)
    (h1 : ¬ FourInARow s Marker.PlayerOne) (h2 : ¬ FourInARow s Marker.PlayerTwo) :
    get_result inv s 1 = Except.ok (1 / 2) ∧ get_result inv s 2 = Except.ok (1 / 2) := by
  have hw : get_winner s = Except.ok Marker.Empty := by
    by_cases h0 : s.last_col < 0
    · exact get_winner_no_last s h0
    · have hin : inBounds s s.last_row s.last_col := by
        rcases hlast with h | h
        · exact absurd h h0
        · exact h
      rw [get_winner_eq s (by omega) hin]
      by_cases hW : WinAtLast s (s.board s.last_row s.last_col)
      · rw [if_pos hW]
        by_cases hE : s.board s.last_row s.last_col = Marker.Empty
        · rw [hE]
        · obtain ⟨d, hd, hrun⟩ := hW
          have hline := line_of_run s _ d hd hrun
          rcases marker_cases _ hE with h | h
          · rw [h] at hline; exact absurd hline h1
          · rw [h] at hline; exact absurd hline h2
      · rw [if_neg hW]
  have hm : has_moves inv s = Except.ok false := by
    rw [has_moves_eq inv s Marker.Empty hinv hw]
    simp only [ne_eq, not_true_eq_false, if_false]
    rw [has_moves_loop_false_iff]
    intro c hc
    have := (mem_columns s c).1 hc
    exact hfull c this.1 this.2
  constructor <;> (unfold get_result; rw [hm]; simp [hinv, hw])

/-- C10 on the full 6x7 board `drawnBoard`: the check passes, the last move
is on the board, every top cell is occupied, the naive scan finds no line for
either player, and both results are `0.5`. -/
theorem C10_draw_witness :
    check_invariant drawnBoard = true ∧
    inBounds drawnBoard drawnBoard.last_row drawnBoard.last_col ∧
    naive_scan drawnBoard Marker.PlayerOne = false ∧
    naive_scan drawnBoard Marker.PlayerTwo = false ∧
    get_result check_invariant drawnBoard 1 = Except.ok (1 / 2) ∧
    get_result check_invariant drawnBoard 2 = Except.ok (1 / 2) := by
  have hfull : ∀ c : Int, 0 ≤ c → c < drawnBoard.num_cols →
      ∃ m, m ≠ Marker.Empty ∧ readCell drawnBoard 0 c = Except.ok m := by
    intro c h0 h1
    have h1' : c < 7 := h1
    have : c = 0 ∨ c = 1 ∨ c = 2 ∨ c = 3 ∨ c = 4 ∨ c = 5 ∨ c = 6 := by omega
    rcases this with h | h | h | h | h | h | h <;> subst h
    · exact ⟨Marker.PlayerOne, by decide, rfl⟩
    · exact ⟨Marker.PlayerOne, by decide, rfl⟩
    · exact ⟨Marker.PlayerTwo, by decide, rfl⟩
    · exact ⟨Marker.PlayerTwo, by decide, rfl⟩
    · exact ⟨Marker.PlayerOne, by decide, rfl⟩
    · exact ⟨Marker.PlayerOne, by decide, rfl⟩
    · exact ⟨Marker.PlayerTwo, by decide, rfl⟩
  have n1 : naive_scan drawnBoard Marker.PlayerOne = false := rfl
  have n2 : naive_scan drawnBoard Marker.PlayerTwo = false := rfl
  have hres := C10_draw check_invariant drawnBoard rfl (Or.inr (by decide)) hfull
    (by rw [← naive_scan_iff, n1]; decide) (by rw [← naive_scan_iff, n2]; decide)
  exact ⟨rfl, by decide, n1, n2, hres.1, hres.2⟩

/-- C11.  `get_result(p)` fails with a contract violation if and only if
`has_moves()` is true.  On every terminal state (`has_moves()` false) and for
`p` in {1, 2} it succeeds and returns `0.0`, `0.5` or `1.0`; so whenever
`has_moves()` returns a value, `get_result(p)` fails exactly when that value is
true. -/
theorem C11_get_result_contract (inv : ConnectFourState → Bool) (s : ConnectFourState)
    (p : Int) :
    (get_result inv s p = Except.error Error.ContractViolation ↔
      has_moves inv s = Except.ok true) ∧
    (has_moves inv s = Except.ok false → (p = 1 ∨ p = 2) →
      (get_result inv s p = Except.ok 0 ∨ get_result inv s p = Except.ok (1 / 2) ∨
        get_result inv s p = Except.ok 1)) ∧
    (∀ b : Bool, has_moves inv s = Except.ok b → (p = 1 ∨ p = 2) →
      ((∃ e, get_result inv s p = Except.error e) ↔ b = true)) := by
  have hterm : has_moves inv s = Except.ok false → (p = 1 ∨ p = 2) →
      (get_result inv s p = Except.ok 0 ∨ get_result inv s p = Except.ok (1 / 2) ∨
        get_result inv s p = Except.ok 1) := by
    intro hf hp
    obtain ⟨_, w, hw⟩ := has_moves_ok_inv inv s false hf
    rw [get_result_eq inv s p w hf hw]
    by_cases hE : w = Marker.Empty
    · rw [if_pos hE]; exact Or.inr (Or.inl rfl)
    · rw [if_neg hE]
      rcases hp with h | h <;> subst h
      · by_cases h1 : w = Marker.PlayerOne
        · exact Or.inl (by simp [player_markers, h1])
        · exact Or.inr (Or.inr (by simp [player_markers, h1]))
      · by_cases h2 : w = Marker.PlayerTwo
        · exact Or.inl (by simp [player_markers, h2])
        · exact Or.inr (Or.inr (by simp [player_markers, h2]))
  have htrue : has_moves inv s = Except.ok true →
      get_result inv s p = Except.error Error.ContractViolation := by
    intro h
    unfold get_result
    rw [h]
  refine ⟨⟨?_, htrue⟩, hterm, ?_⟩
  · intro h
    cases hm : has_moves inv s with
    | error e =>
      have hr : get_result inv s p = Except.error e := by
        unfold get_result
        rw [hm]
      rw [hr] at h
      injection h with h
      rcases has_moves_error inv s e hm with h' | h' <;> rw [h'] at h <;> cases h
    | ok b =>
      cases b with
      | true => rfl
      | false =>
        obtain ⟨_, w, hw⟩ := has_moves_ok_inv inv s false hm
        rw [get_result_eq inv s p w hm hw] at h
        by_cases hE : w = Marker.Empty
        · rw [if_pos hE] at h; cases h
        · rw [if_neg hE] at h
          split at h
          · cases h
          · split at h <;> cases h
  · intro b hb hp
    cases b with
    | true =>
      exact ⟨fun _ => rfl, fun _ => ⟨_, htrue hb⟩⟩
    | false =>
      constructor
      · rintro ⟨e, he⟩
        rcases hterm hb hp with h | h | h <;> rw [h] at he <;> cases he
      · intro h; cases h

/-- C11 on two states: on the empty 6x7 board `has_moves()` is true and
`get_result(1)` is a contract violation; after 3,0,3,0,3,0,3 the state is
terminal and `get_result(1)` returns one of the three values. -/
theorem C11_get_result_contract_witness :
    (has_moves check_invariant (init 6 7) = Except.ok true ∧
      get_result check_invariant (init 6 7) 1 = Except.error Error.ContractViolation) ∧
    (has_moves check_invariant fourInColumnThree = Except.ok false ∧
      (get_result check_invariant fourInColumnThree 1 = Except.ok 0 ∨
        get_result check_invariant fourInColumnThree 1 = Except.ok (1 / 2) ∨
        get_result check_invariant fourInColumnThree 1 = Except.ok 1)) :=
  ⟨⟨rfl, (C11_get_result_contract check_invariant (init 6 7) 1).1.2 rfl⟩,
    ⟨rfl, (C11_get_result_contract check_invariant fourInColumnThree 1).2.1 rfl (Or.inl rfl)⟩⟩

/-- C12.  Gravity invariant.  Every state obtained from the empty state by
successful `do_move` calls (in particular every reachable state) satisfies
`Gravity`: in each column the non-`Empty` cells form a contiguous block from
the bottom row.  A successful `do_move` preserves `Gravity`. -/
theorem C12_gravity (inv : ConnectFourState → Bool) :
    (∀ (nrows ncols : Int) (n : Nat) (s : ConnectFourState),
      MovesFrom inv (init nrows ncols) n s → Gravity s) ∧
    (∀ s : ConnectFourState, Reachable inv s → Gravity s) ∧
    (∀ (s s' : ConnectFourState) (c : Int), Gravity s →
      do_move inv s c = (Except.ok (), s') → Gravity s') := by
  refine ⟨?_, ?_, ?_⟩
  · intro nrows ncols n s h
    exact movesFrom_gravity inv _ s n (gravity_init nrows ncols) h
  · intro s h
    obtain ⟨nrows, ncols, n, hn⟩ := reachable_movesFrom inv s h
    exact movesFrom_gravity inv _ s n (gravity_init nrows ncols) hn
  · intro s s' c hg hd
    exact gravity_step inv s s' c hg hd

/-- C12 on the state after 3,0,3,0,3,0,3: it is reachable and satisfies
`Gravity`. -/
theorem C12_gravity_witness :
    Reachable check_invariant fourInColumnThree ∧ Gravity fourInColumnThree :=
  ⟨reachable_play check_invariant [3, 0, 3, 0, 3, 0, 3] (init 6 7)
      (Reachable.empty 6 7 (by decide) (by decide)) rfl,
    (C12_gravity check_invariant).2.1 fourInColumnThree
      (reachable_play check_invariant [3, 0, 3, 0, 3, 0, 3] (init 6 7)
        (Reachable.empty 6 7 (by decide) (by decide)) rfl)⟩

/-- C13.  After `n` successful `do_move` calls starting from the empty state,
the board holds exactly `n` non-`Empty` cells: each successful `do_move` (with
`player_to_move` 1 or 2) raises the number of non-`Empty` cells by one. -/
theorem C13_count_non_empty (inv : ConnectFourState → Bool) :
    (∀ (nrows ncols : Int) (n : Nat) (s : ConnectFourState),
      MovesFrom inv (init nrows ncols) n s → countNonEmpty s = n) ∧
    (∀ (s s' : ConnectFourState) (c : Int),
      (s.player_to_move = 1 ∨ s.player_to_move = 2) →
      do_move inv s c = (Except.ok (), s') →
      countNonEmpty s' = countNonEmpty s + 1) := by
  constructor
  · intro nrows ncols n s h
    exact movesFrom_count inv nrows ncols s n h
  · intro s s' c hp hd
    exact countNonEmpty_step inv s s' c hp hd

/-- C13 on the state after the moves 3, 0, 3: three successful calls, three
non-`Empty` cells. -/
theorem C13_count_non_empty_witness :
    MovesFrom check_invariant (init 6 7) 3 threeMoves ∧ countNonEmpty threeMoves = 3 :=
  ⟨movesFrom_play check_invariant (init 6 7) [3, 0, 3] 0 (init 6 7) MovesFrom.zero rfl,
    (C13_count_non_empty check_invariant).1 6 7 3 threeMoves
      (movesFrom_play check_invariant (init 6 7) [3, 0, 3] 0 (init 6 7) MovesFrom.zero rfl)⟩

/-- C14.  After `n >= 1` successful `do_move` calls starting from the empty
state: `player_to_move` is 1 or 2, and is 1 exactly when `n` is even; the cell
at `last_move` is on the board and not `Empty`, every cell above it in its
column is `Empty` (it is the topmost filled cell), and it holds the marker of
player `3 - player_to_move`. -/
theorem C14_player_and_last_move (inv : ConnectFourState → Bool) (nrows ncols : Int)
    (n : Nat) (s : ConnectFourState) (h : MovesFrom inv (init nrows ncols) n s)
    (hn : 1 ≤ n) :
    (s.player_to_move = 1 ∨ s.player_to_move = 2) ∧
    (s.player_to_move = 1 ↔ n % 2 = 0) ∧
    inBounds s s.last_row s.last_col ∧
    s.board s.last_row s.last_col ≠ Marker.Empty ∧
    (∀ r : Int, 0 ≤ r → r < s.last_row → s.board r s.last_col = Marker.Empty) ∧
    player_markers (3 - s.player_to_move) = some (s.board s.last_row s.last_col) := by
  obtain ⟨h1, h2⟩ := movesFrom_player inv nrows ncols s n h
  obtain ⟨h3, h4, h5, h6⟩ := movesFrom_last inv nrows ncols s n h hn
  exact ⟨h1, h2, h3, h4, h5, h6⟩

/-- C14 on the state after the moves 3, 0, 3: three moves were made, so
player 2 is to move and the last piece, at (4,3), is player 1's. -/
theorem C14_player_and_last_move_witness :
    MovesFrom check_invariant (init 6 7) 3 threeMoves ∧ 1 ≤ 3 ∧
    threeMoves.player_to_move = 2 ∧
    (threeMoves.last_row, threeMoves.last_col) = (4, 3) ∧
    threeMoves.board 4 3 = Marker.PlayerOne ∧
    ((threeMoves.player_to_move = 1 ∨ threeMoves.player_to_move = 2) ∧
      (threeMoves.player_to_move = 1 ↔ 3 % 2 = 0) ∧
      inBounds threeMoves threeMoves.last_row threeMoves.last_col ∧
      threeMoves.board threeMoves.last_row threeMoves.last_col ≠ Marker.Empty ∧
      (∀ r : Int, 0 ≤ r → r < threeMoves.last_row →
        threeMoves.board r threeMoves.last_col = Marker.Empty) ∧
      player_markers (3 - threeMoves.player_to_move)
        = some (threeMoves.board threeMoves.last_row threeMoves.last_col)) :=
  ⟨movesFrom_play check_invariant (init 6 7) [3, 0, 3] 0 (init 6 7) MovesFrom.zero rfl,
    by decide, rfl, rfl, rfl,
    C14_player_and_last_move check_invariant 6 7 3 threeMoves
      (movesFrom_play check_invariant (init 6 7) [3, 0, 3] 0 (init 6 7) MovesFrom.zero rfl)
      (by decide)⟩

/-- C15.  On a state where `has_moves()` is true, for draws taken from
`[0, num_cols)` among which some column has an `Empty` top cell:
`do_random_move` has exactly the effect of `do_move(c)`, where `c` is the
first drawn column whose top cell is `Empty`; `c` is a member of
`get_moves()`; and the draws before `c`, all of full columns, are skipped
without any effect. -/
theorem C15_do_random_move (inv : ConnectFourState → Bool) (s : ConnectFourState)
    (draws : List Int) (hm : has_moves inv s = Except.ok true)
    (hrange : ∀ d ∈ draws, 0 ≤ d ∧ d < s.num_cols)
    (hex : ∃ c ∈ draws, readCell s 0 c = Except.ok Marker.Empty) :
    ∃ (pre : List Int) (c : Int) (post : List Int),
      draws = pre ++ c :: post ∧
      (∀ d ∈ pre, ∃ m, m ≠ Marker.Empty ∧ readCell s 0 d = Except.ok m) ∧
      readCell s 0 c = Except.ok Marker.Empty ∧
      do_random_move inv s draws = do_move inv s c ∧
      (∃ moves, get_moves inv s = Except.ok moves ∧ c ∈ moves) ∧
      do_random_move inv s draws = do_random_move inv s (c :: post) := by
  obtain ⟨hinv, hw⟩ := has_moves_true_winner inv s hm
  have hrows : 0 < s.num_rows := by
    obtain ⟨c, _, hc⟩ := hex
    exact ((readCell_ok_iff s 0 c _).1 hc).1.2.1
  have hin : ∀ d ∈ draws, inBounds s 0 d := fun d hd =>
    ⟨le_refl _, hrows, (hrange d hd).1, (hrange d hd).2⟩
  have hex' : ∃ c ∈ draws, s.board 0 c = Marker.Empty := by
    obtain ⟨c, hc, hcE⟩ := hex
    exact ⟨c, hc, ((readCell_ok_iff s 0 c _).1 hcE).2⟩
  obtain ⟨pre, c, post, hsplit, hpre, hcE, hrun, hskip⟩ :=
    do_random_move_loop_first inv s draws hin hex'
  have hcmem : c ∈ draws := by rw [hsplit]; simp
  have hunf : ∀ l : List Int, do_random_move inv s l = do_random_move_loop inv s l := by
    intro l
    unfold do_random_move
    rw [hm]
    simp [hinv]
  refine ⟨pre, c, post, hsplit, ?_, ?_, by rw [hunf, hrun], ?_, by rw [hunf, hunf, hskip]⟩
  · intro d hd
    have hdm : d ∈ draws := by rw [hsplit]; simp [hd]
    exact ⟨s.board 0 d, hpre d hd, readCell_of_inBounds (hin d hdm)⟩
  · rw [readCell_of_inBounds (hin c hcmem), hcE]
  · refine ⟨_, get_moves_eq inv s Marker.Empty hinv hw hrows, ?_⟩
    simp only [ne_eq, not_true_eq_false, if_false]
    rw [List.mem_filter, mem_columns]
    exact ⟨hrange c hcmem, by simp [hcE]⟩

/-- C15 on the 6x7 board whose column 0 is full, with the draws 0, 0, 4, 2:
the two draws of column 0 are skipped and the move lands in column 4. -/
theorem C15_do_random_move_witness :
    has_moves check_invariant fullColumnZero = Except.ok true ∧
    do_random_move check_invariant fullColumnZero [0, 0, 4, 2]
      = do_move check_invariant fullColumnZero 4 ∧
    ∃ (pre : List Int) (c : Int) (post : List Int),
      [0, 0, 4, 2] = pre ++ c :: post ∧
      (∀ d ∈ pre, ∃ m, m ≠ Marker.Empty ∧ readCell fullColumnZero 0 d = Except.ok m) ∧
      readCell fullColumnZero 0 c = Except.ok Marker.Empty ∧
      do_random_move check_invariant fullColumnZero [0, 0, 4, 2]
        = do_move check_invariant fullColumnZero c ∧
      (∃ moves, get_moves check_invariant fullColumnZero = Except.ok moves ∧ c ∈ moves) ∧
      do_random_move check_invariant fullColumnZero [0, 0, 4, 2]
        = do_random_move check_invariant fullColumnZero (c :: post) :=
  ⟨rfl, rfl,
    C15_do_random_move check_invariant fullColumnZero [0, 0, 4, 2] rfl
      (by
        intro d hd
        have hcols : fullColumnZero.num_cols = 7 := rfl
        rw [hcols]
        simp only [List.mem_cons, List.mem_singleton, List.not_mem_nil, or_false] at hd
        omega)
      ⟨4, by simp, rfl⟩⟩

/-- C16.  `has_moves()` is true if and only if `get_moves()` returns a
non-empty sequence, and `has_moves()` is false if and only if `get_moves()`
returns the empty sequence. -/
theorem C16_has_moves_iff_get_moves (inv : ConnectFourState → Bool) (s : ConnectFourState) :
    (has_moves inv s = Except.ok true ↔
      ∃ moves, get_moves inv s = Except.ok moves ∧ moves ≠ []) ∧
    (has_moves inv s = Except.ok false ↔ get_moves inv s = Except.ok []) := by
  unfold has_moves get_moves
  by_cases hinv : inv s = false
  · simp [hinv]
  · rw [if_neg hinv, if_neg hinv]
    cases hw : get_winner s with
    | error e => simp
    | ok w =>
      simp only
      by_cases hE : w ≠ Marker.Empty
      · rw [if_pos hE, if_pos hE]
        simp
      · rw [if_neg hE, if_neg hE]
        exact has_get_moves_loops s (columns s) (fun c hc => (mem_columns s c).1 hc)

/-- C16 on two states: on the empty 6x7 board both queries report moves; after
3,0,3,0,3,0,3 both report none. -/
theorem C16_has_moves_iff_get_moves_witness :
    (has_moves check_invariant (init 6 7) = Except.ok true ∧
      ∃ moves, get_moves check_invariant (init 6 7) = Except.ok moves ∧ moves ≠ []) ∧
    (has_moves check_invariant fourInColumnThree = Except.ok false ∧
      get_moves check_invariant fourInColumnThree = Except.ok []) :=
  ⟨⟨rfl, (C16_has_moves_iff_get_moves check_invariant (init 6 7)).1.1 rfl⟩,
    ⟨rfl, (C16_has_moves_iff_get_moves check_invariant fourInColumnThree).2.1 rfl⟩⟩

/-- C17.  On every terminal state (`has_moves()` false) both `get_result(1)`
and `get_result(2)` succeed and their sum is 1: `0.5` and `0.5` when nobody has
won, `0` and `1` in some order when a player has won. -/
theorem C17_results_sum_to_one (inv : ConnectFourState → Bool) (s : ConnectFourState)
    (hterm : has_moves inv s = Except.ok false) :
    ∃ a b : ℚ, get_result inv s 1 = Except.ok a ∧ get_result inv s 2 = Except.ok b ∧
      a + b = 1 ∧
      (get_winner s = Except.ok Marker.Empty → a = 1 / 2 ∧ b = 1 / 2) ∧
      (∀ w : Marker, w ≠ Marker.Empty → get_winner s = Except.ok w →
        (a = 0 ∧ b = 1) ∨ (a = 1 ∧ b = 0)) := by
  obtain ⟨_, w, hw⟩ := has_moves_ok_inv inv s false hterm
  rw [get_result_eq inv s 1 w hterm hw, get_result_eq inv s 2 w hterm hw, hw]
  cases w with
  | Empty =>
    refine ⟨1 / 2, 1 / 2, by simp, by simp, by norm_num, fun _ => ⟨rfl, rfl⟩, ?_⟩
    intro w hne h
    injection h with h
    exact absurd h.symm hne
  | PlayerOne =>
    refine ⟨0, 1, by simp [player_markers], by simp [player_markers], by norm_num, ?_,
      fun _ _ _ => Or.inl ⟨rfl, rfl⟩⟩
    intro h; cases h
  | PlayerTwo =>
    refine ⟨1, 0, by simp [player_markers], by simp [player_markers], by norm_num, ?_,
      fun _ _ _ => Or.inr ⟨rfl, rfl⟩⟩
    intro h; cases h

/-- C17 on the state after 3,0,3,0,3,0,3: terminal, and the two results add
up to 1. -/
theorem C17_results_sum_to_one_witness :
    has_moves check_invariant fourInColumnThree = Except.ok false ∧
    ∃ a b : ℚ, get_result check_invariant fourInColumnThree 1 = Except.ok a ∧
      get_result check_invariant fourInColumnThree 2 = Except.ok b ∧
      a + b = 1 ∧
      (get_winner fourInColumnThree = Except.ok Marker.Empty → a = 1 / 2 ∧ b = 1 / 2) ∧
      (∀ w : Marker, w ≠ Marker.Empty → get_winner fourInColumnThree = Except.ok w →
        (a = 0 ∧ b = 1) ∨ (a = 1 ∧ b = 0)) :=
  ⟨rfl, C17_results_sum_to_one check_invariant fourInColumnThree rfl⟩

/-- C18.  A successful `do_move(c)` leaves every cell other than the landing
cell `(last_row, c)` as it was, and leaves `num_rows` and `num_cols` as they
were.  The landing cell was `Empty` and now holds the marker of the player who
moved; for `player_to_move` 1 or 2 it is therefore the one cell that
changed. -/
theorem C18_do_move_frame (inv : ConnectFourState → Bool) (s s' : ConnectFourState)
    (c : Int) (h : do_move inv s c = (Except.ok (), s')) :
    s'.last_col = c ∧
    (∀ r' c' : Int, ¬ (r' = s'.last_row ∧ c' = c) → s'.board r' c' = s.board r' c') ∧
    s'.num_rows = s.num_rows ∧ s'.num_cols = s.num_cols ∧
    s.board s'.last_row c = Marker.Empty ∧
    player_markers s.player_to_move = some (s'.board s'.last_row c) ∧
    ((s.player_to_move = 1 ∨ s.player_to_move = 2) →
      s'.board s'.last_row c ≠ s.board s'.last_row c) := by
  obtain ⟨r, m, hm, _, hE, _, rfl⟩ := do_move_ok_state inv s s' c h
  have hcell : setCell s.board r c m r c = m := by simp [setCell]
  refine ⟨rfl, ?_, rfl, rfl, hE, ?_, ?_⟩
  · intro r' c' hne
    show setCell s.board r c m r' c' = s.board r' c'
    unfold setCell
    rw [if_neg hne]
  · show player_markers s.player_to_move = some (setCell s.board r c m r c)
    rw [hcell, hm]
  · intro hp
    show setCell s.board r c m r c ≠ s.board r c
    rw [hcell, hE]
    rcases player_markers_some _ _ hm with h' | h' | h'
    · omega
    · rw [h'.2]; decide
    · rw [h'.2]; decide

/-- C18 on the first move of a game, `do_move(3)` on the empty 6x7 board: the
piece lands at (5,3) and the cell (5,2) is untouched. -/
theorem C18_do_move_frame_witness :
    do_move check_invariant (init 6 7) 3
      = (Except.ok (), (do_move check_invariant (init 6 7) 3).2) ∧
    (do_move check_invariant (init 6 7) 3).2.last_row = 5 ∧
    (do_move check_invariant (init 6 7) 3).2.board 5 2 = (init 6 7).board 5 2 ∧
    (do_move check_invariant (init 6 7) 3).2.num_rows = (init 6 7).num_rows :=
  ⟨rfl, rfl,
    (C18_do_move_frame check_invariant (init 6 7) (do_move check_invariant (init 6 7) 3).2 3
      rfl).2.1 5 2 (by decide),
    (C18_do_move_frame check_invariant (init 6 7) (do_move check_invariant (init 6 7) 3).2 3
      rfl).2.2.1⟩

/-- C19.  For a column `c` in range whose top cell is `Empty`, the search loop
of `do_move`, started at row `num_rows - 1`, terminates: for every fuel from
`num_rows` on it returns one and the same row `r`, with `0 <= r < num_rows`
and `board[r][c]` `Empty`.  It never reads outside the board (in particular
never a row below 0), whatever the fuel. -/
theorem C19_do_move_loop_terminates (s : ConnectFourState) (c : Int)
    (hc0 : 0 ≤ c) (hc1 : c < s.num_cols)
    (htop : readCell s 0 c = Except.ok Marker.Empty) :
    (∃ r : Int, 0 ≤ r ∧ r < s.num_rows ∧ readCell s r c = Except.ok Marker.Empty ∧
      ∀ fuel : Nat, s.num_rows.toNat ≤ fuel →
        do_move_loop s c fuel (s.num_rows - 1) = Except.ok r) ∧
    (∀ fuel : Nat,
      do_move_loop s c fuel (s.num_rows - 1) ≠ Except.error Error.OutOfBounds) := by
  have htop' := (readCell_ok_iff s 0 c Marker.Empty).1 htop
  have hrows : 0 < s.num_rows := htop'.1.2.1
  obtain ⟨r, hr0, hr1, hE, _, hfuel⟩ := do_move_loop_stable s c ⟨hc0, hc1⟩ htop
  refine ⟨⟨r, hr0, hr1, ?_, hfuel⟩, ?_⟩
  · rw [readCell_of_inBounds ⟨hr0, hr1, hc0, hc1⟩, hE]
  · intro fuel
    exact do_move_loop_in_bounds s c ⟨hc0, hc1⟩ htop'.2 fuel (s.num_rows - 1)
      (by omega) (by omega)

/-- C19 on the 6x7 board after 3, 0, 3 and column 3: the loop stops at row
3. -/
theorem C19_do_move_loop_terminates_witness :
    (0 : Int) ≤ 3 ∧ (3 : Int) < threeMoves.num_cols ∧
    readCell threeMoves 0 3 = Except.ok Marker.Empty ∧
    do_move_loop threeMoves 3 6 (threeMoves.num_rows - 1) = Except.ok 3 ∧
    ((∃ r : Int, 0 ≤ r ∧ r < threeMoves.num_rows ∧
        readCell threeMoves r 3 = Except.ok Marker.Empty ∧
        ∀ fuel : Nat, threeMoves.num_rows.toNat ≤ fuel →
          do_move_loop threeMoves 3 fuel (threeMoves.num_rows - 1) = Except.ok r) ∧
      (∀ fuel : Nat,
        do_move_loop threeMoves 3 fuel (threeMoves.num_rows - 1)
          ≠ Except.error Error.OutOfBounds)) :=
  ⟨by decide, by decide, rfl, rfl,
    C19_do_move_loop_terminates threeMoves 3 (by decide) (by decide) rfl⟩

/-- C20.  When `last_move` is none or lies inside the board, `get_winner()`
returns a marker: no board access falls outside `[0, num_rows)` x
`[0, num_cols)` (an access outside would make the result `OutOfBounds`) and no
loop runs out of fuel.  When `last_move` lies inside the board, each of the
eight counting loops, taken by itself, terminates without an access outside
the board: it returns one and the same count for every fuel from `scanFuel s`
on. -/
theorem C20_get_winner_in_bounds (s : ConnectFourState)
    (hlast : s.last_col < 0 ∨ inBounds s s.last_row s.last_col) :
    (∃ w, get_winner s = Except.ok w) ∧
    (inBounds s s.last_row s.last_col →
      (∃ k, ∀ fuel : Nat, scanFuel s ≤ fuel →
        count_loop s (s.board s.last_row s.last_col) (fun _ col => decide (col ≥ 0))
          0 (-1) fuel s.last_row (s.last_col - 1) 0 = Except.ok k) ∧
      (∃ k, ∀ fuel : Nat, scanFuel s ≤ fuel →
        count_loop s (s.board s.last_row s.last_col) (fun _ col => decide (col < s.num_cols))
          0 1 fuel s.last_row (s.last_col + 1) 0 = Except.ok k) ∧
      (∃ k, ∀ fuel : Nat, scanFuel s ≤ fuel →
        count_loop s (s.board s.last_row s.last_col) (fun row _ => decide (row ≥ 0))
          (-1) 0 fuel (s.last_row - 1) s.last_col 0 = Except.ok k) ∧
      (∃ k, ∀ fuel : Nat, scanFuel s ≤ fuel →
        count_loop s (s.board s.last_row s.last_col) (fun row _ => decide (row < s.num_rows))
          1 0 fuel (s.last_row + 1) s.last_col 0 = Except.ok k) ∧
      (∃ k, ∀ fuel : Nat, scanFuel s ≤ fuel →
        count_loop s (s.board s.last_row s.last_col)
          (fun row col => decide (row ≥ 0) && decide (col ≥ 0))
          (-1) (-1) fuel (s.last_row - 1) (s.last_col - 1) 0 = Except.ok k) ∧
      (∃ k, ∀ fuel : Nat, scanFuel s ≤ fuel →
        count_loop s (s.board s.last_row s.last_col)
          (fun row col => decide (row < s.num_rows) && decide (col < s.num_cols))
          1 1 fuel (s.last_row + 1) (s.last_col + 1) 0 = Except.ok k) ∧
      (∃ k, ∀ fuel : Nat, scanFuel s ≤ fuel →
        count_loop s (s.board s.last_row s.last_col)
          (fun row col => decide (row < s.num_rows) && decide (col ≥ 0))
          1 (-1) fuel (s.last_row + 1) (s.last_col - 1) 0 = Except.ok k) ∧
      (∃ k, ∀ fuel : Nat, scanFuel s ≤ fuel →
        count_loop s (s.board s.last_row s.last_col)
          (fun row col => decide (row ≥ 0) && decide (col < s.num_cols))
          (-1) 1 fuel (s.last_row - 1) (s.last_col + 1) 0 = Except.ok k)) := by
  refine ⟨(get_winner_ok_iff s).2 hlast, ?_⟩
  intro hin
  have hl := hin
  unfold inBounds at hl
  refine ⟨?_, ?_, ?_, ?_, ?_, ?_, ?_, ?_⟩
  · exact count_loop_stable s _ _ 0 (-1) _ _ (by omega) (by omega) (by omega)
      (by unfold inBounds; omega)
      (by intro i; unfold inBounds; simp only [decide_eq_true_eq]; omega)
  · exact count_loop_stable s _ _ 0 1 _ _ (by omega) (by omega) (by omega)
      (by unfold inBounds; omega)
      (by intro i; unfold inBounds; simp only [decide_eq_true_eq]; omega)
  · exact count_loop_stable s _ _ (-1) 0 _ _ (by omega) (by omega) (by omega)
      (by unfold inBounds; omega)
      (by intro i; unfold inBounds; simp only [decide_eq_true_eq]; omega)
  · exact count_loop_stable s _ _ 1 0 _ _ (by omega) (by omega) (by omega)
      (by unfold inBounds; omega)
      (by intro i; unfold inBounds; simp only [decide_eq_true_eq]; omega)
  · exact count_loop_stable s _ _ (-1) (-1) _ _ (by omega) (by omega) (by omega)
      (by unfold inBounds; omega)
      (by intro i; unfold inBounds; simp only [decide_eq_true_eq, Bool.and_eq_true]; omega)
  · exact count_loop_stable s _ _ 1 1 _ _ (by omega) (by omega) (by omega)
      (by unfold inBounds; omega)
      (by intro i; unfold inBounds; simp only [decide_eq_true_eq, Bool.and_eq_true]; omega)
  · exact count_loop_stable s _ _ 1 (-1) _ _ (by omega) (by omega) (by omega)
      (by unfold inBounds; omega)
      (by intro i; unfold inBounds; simp only [decide_eq_true_eq, Bool.and_eq_true]; omega)
  · exact count_loop_stable s _ _ (-1) 1 _ _ (by omega) (by omega) (by omega)
      (by unfold inBounds; omega)
      (by intro i; unfold inBounds; simp only [decide_eq_true_eq, Bool.and_eq_true]; omega)

/-- C20 on the state after 3,0,3,0,3,0,3: the last move (2,3) is on the
board, `get_winner()` returns a marker, and the downward loop counts the three
pieces below the last one. -/
theorem C20_get_winner_in_bounds_witness :
    inBounds fourInColumnThree fourInColumnThree.last_row fourInColumnThree.last_col ∧
    (∃ w, get_winner fourInColumnThree = Except.ok w) ∧
    count_loop fourInColumnThree
      (fourInColumnThree.board fourInColumnThree.last_row fourInColumnThree.last_col)
      (fun row _ => decide (row < fourInColumnThree.num_rows)) 1 0
      (scanFuel fourInColumnThree) (fourInColumnThree.last_row + 1)
      fourInColumnThree.last_col 0 = Except.ok 3 :=
  ⟨by decide, (C20_get_winner_in_bounds fourInColumnThree (Or.inr (by decide))).1, rfl⟩

end ConnectFour
